import Mathlib

/-!
PoN/Version1.cpp: a proof-of-work pixel ledger.

A shallow embedding of `src/PoN/Version1.cpp` and theorems about it.

Modelling conventions

* `std::string` is a Lean `String`; the bytes handed to `SHA256` are its UTF-8 encoding.
* `int` and `time_t` values are `Int`.  Arithmetic on an `int` (`nonce++` and `nonce - 1` in
  `proofOfWork`, the sums and differences of `manhattanDistance`) is taken modulo `2^32`
  (two's complement, `wrapInt`), and so is the conversion of `chain.size()` to the `int`
  index of a new block.
* `time(nullptr)` and `sodium_init()` are inputs of the operation that calls them.
* `SHA256` is the OpenSSL function; it is embedded here after FIPS 180-4 and checked
  against published digests (`SHA256_empty`, `SHA256_abc`, `SHA256_two_blocks`).
* The statement `hexHash += sprintf("%02x", i)` is ill-formed as written: `sprintf` gets the
  format as its buffer and the byte as its format, and its `int` result is appended as one
  character.  `hexHashAsWritten` models the statement as written.  `hexByte` and `hexDigest`
  model the repaired loop, which appends the two lowercase hexadecimal digits that `%02x`
  denotes; every digest used in the model of `computeHash` and `proofOfWork` is the repaired
  one.
* `std::unordered_map` is an association list with at most one entry per key; the order of
  its entries is never observed by the program.
* The unbounded `do ... while` search of `proofOfWork` takes a fuel argument and returns
  `none` when the fuel runs out; `chain.back()` on an empty vector also gives `none`.
-/

namespace PoN

/-! ## SHA-256 (OpenSSL `SHA256`, after FIPS 180-4) -/

/-- Rotate a 32-bit word right by `n` bits. -/
def rotr (x n : Nat) : Nat := ((x >>> n) ||| (x <<< (32 - n))) % 4294967296

/-- The 64 round constants of SHA-256. -/
def K256 : List Nat := [
  1116352408, 1899447441, 3049323471, 3921009573, 961987163, 1508970993,
  2453635748, 2870763221, 3624381080, 310598401, 607225278, 1426881987,
  1925078388, 2162078206, 2614888103, 3248222580, 3835390401, 4022224774,
  264347078, 604807628, 770255983, 1249150122, 1555081692, 1996064986,
  2554220882, 2821834349, 2952996808, 3210313671, 3336571891, 3584528711,
  113926993, 338241895, 666307205, 773529912, 1294757372, 1396182291,
  1695183700, 1986661051, 2177026350, 2456956037, 2730485921, 2820302411,
  3259730800, 3345764771, 3516065817, 3600352804, 4094571909, 275423344,
  430227734, 506948616, 659060556, 883997877, 958139571, 1322822218,
  1537002063, 1747873779, 1955562222, 2024104815, 2227730452, 2361852424,
  2428436474, 2756734187, 3204031479, 3329325298]

/-- Message padding: the byte `0x80`, zero bytes up to 56 modulo 64, then the bit length of
the message as eight big-endian bytes. -/
def shaPad (msg : List Nat) : List Nat :=
  let l := msg.length
  msg ++ 128 :: List.replicate ((119 - l % 64) % 64) 0
    ++ (List.range 8).map (fun i => (8 * l) >>> (8 * (7 - i)) % 256)

/-- Group bytes into big-endian 32-bit words. -/
def shaWords : List Nat → List Nat
  | a :: b :: c :: d :: rest => (a * 16777216 + b * 65536 + c * 256 + d) :: shaWords rest
  | _ => []

/-- Extend the message schedule, kept newest word first, by `n` more words. -/
def shaExtend : Nat → List Nat → List Nat
  | 0, w => w
  | n + 1, w =>
    let w2 := w.getD 1 0
    let w7 := w.getD 6 0
    let w15 := w.getD 14 0
    let w16 := w.getD 15 0
    let s0 := rotr w15 7 ^^^ rotr w15 18 ^^^ (w15 >>> 3)
    let s1 := rotr w2 17 ^^^ rotr w2 19 ^^^ (w2 >>> 10)
    shaExtend n (((w16 + s0 + w7 + s1) % 4294967296) :: w)

/-- The eight working variables of SHA-256. -/
structure ShaState where
  a : Nat
  b : Nat
  c : Nat
  d : Nat
  e : Nat
  f : Nat
  g : Nat
  h : Nat
  deriving DecidableEq, Repr

/-- One round of the compression function, for round constant `kw.1` and schedule word
`kw.2`. -/
def shaRound (s : ShaState) (kw : Nat × Nat) : ShaState :=
  let S1 := rotr s.e 6 ^^^ rotr s.e 11 ^^^ rotr s.e 25
  let ch := (s.e &&& s.f) ^^^ ((4294967295 - s.e) &&& s.g)
  let t1 := (s.h + S1 + ch + kw.1 + kw.2) % 4294967296
  let S0 := rotr s.a 2 ^^^ rotr s.a 13 ^^^ rotr s.a 22
  let mj := (s.a &&& s.b) ^^^ (s.a &&& s.c) ^^^ (s.b &&& s.c)
  let t2 := (S0 + mj) % 4294967296
  ⟨(t1 + t2) % 4294967296, s.a, s.b, s.c, (s.d + t1) % 4294967296, s.e, s.f, s.g⟩

/-- Compress one 64-byte block into the running hash value. -/
def shaCompress (h : ShaState) (block : List Nat) : ShaState :=
  let w := (shaExtend 48 (shaWords block).reverse).reverse
  let s := (K256.zip w).foldl shaRound h
  ⟨(h.a + s.a) % 4294967296, (h.b + s.b) % 4294967296, (h.c + s.c) % 4294967296,
   (h.d + s.d) % 4294967296, (h.e + s.e) % 4294967296, (h.f + s.f) % 4294967296,
   (h.g + s.g) % 4294967296, (h.h + s.h) % 4294967296⟩

/-- The initial hash value of SHA-256. -/
def shaInit : ShaState :=
  ⟨1779033703, 3144134277, 1013904242, 2773480762,
   1359893119, 2600822924, 528734635, 1541459225⟩

/-- Compress `n` successive 64-byte blocks. -/
def shaBlocks : Nat → ShaState → List Nat → ShaState
  | 0, h, _ => h
  | n + 1, h, m => shaBlocks n (shaCompress h (m.take 64)) (m.drop 64)

/-- The four bytes of a 32-bit word, most significant first. -/
def wordBytes (w : Nat) : List Nat := [w >>> 24 % 256, w >>> 16 % 256, w >>> 8 % 256, w % 256]

/-- The 32 digest bytes written by `SHA256(data, len, out)`. -/
def SHA256 (msg : List Nat) : List Nat :=
  let p := shaPad msg
  let s := shaBlocks (p.length / 64)
    shaInit p
  wordBytes s.a ++ wordBytes s.b ++ wordBytes s.c ++ wordBytes s.d
    ++ wordBytes s.e ++ wordBytes s.f ++ wordBytes s.g ++ wordBytes s.h

/-! ## Strings and digests -/

/-- UTF-8 encoding of one code point. -/
def utf8Bytes (c : Nat) : List Nat :=
  if c < 0x80 then [c]
  else if c < 0x800 then [0xC0 + c / 64, 0x80 + c % 64]
  else if c < 0x10000 then [0xE0 + c / 4096, 0x80 + c / 64 % 64, 0x80 + c % 64]
  else [0xF0 + c / 262144, 0x80 + c / 4096 % 64, 0x80 + c / 64 % 64, 0x80 + c % 64]

/-- The bytes `ss.str().c_str()` of a string, of length `ss.str().size()`. -/
def strBytes (s : String) : List Nat := s.data.flatMap fun c => utf8Bytes c.toNat

/-- The repaired loop body: the text that the format `%02x` denotes for the byte `i`, two
lowercase hexadecimal digits.  The source does not append this text, see
`hexHashAsWritten`. -/
def hexByte (i : Nat) : List Char := [Nat.digitChar (i / 16 % 16), Nat.digitChar (i % 16)]

/-- The repaired hex loop applied to the SHA-256 digest of the string `s`: what
`computeHash` and `proofOfWork` are written to compute, and the digest the model of both
uses. -/
def hexDigest (s : String) : String := String.mk ((SHA256 (strBytes s)).flatMap hexByte)

/-- The loop `for (unsigned char i : hash) hexHash += sprintf("%02x", i)` as written.  The
call passes the literal `"%02x"` as the buffer and the byte as the format, so what it returns
is not fixed by the language: `sprintfResult i` stands for the `int` returned for the byte
`i`.  The operator `+=` of `std::string` then takes that `int` as one `char`, so each
iteration appends a single character. -/
def hexHashAsWritten (sprintfResult : Nat → Int) (hash : List Nat) : String :=
  String.mk (hash.map fun i => Char.ofNat (sprintfResult i % 256).toNat)

/-- Decimal rendering of an integer, as done by `operator<<` and `std::to_string`. -/
def dec (n : Int) : String := toString n

/-! ## Data model -/

/-- The struct `Pixel`. -/
structure Pixel where
  x : Int
  y : Int
  r : Int
  g : Int
  b : Int
  owner : String
  timestamp : Int
  signature : String
  nonce : Int
  deriving DecidableEq, Repr

/-- The constructor of `Pixel`; `now` is the value returned by `time(nullptr)`. -/
def Pixel.new (now : Int) (x y r g b : Int) (owner signature : String) (nonce : Int) : Pixel :=
  { x := x, y := y, r := r, g := g, b := b, owner := owner, timestamp := now,
    signature := signature, nonce := nonce }

/-- The struct `Block`. -/
structure Block where
  index : Int
  pixels : List Pixel
  timestamp : Int
  prev_hash : String
  hash : String
  deriving DecidableEq, Repr

/-- The method `Block::computeHash`: the hex digest (repaired loop, `hexDigest`) of `index`,
`prev_hash` and `timestamp` streamed one after the other. -/
def Block.computeHash (blk : Block) : String :=
  hexDigest (dec blk.index ++ blk.prev_hash ++ dec blk.timestamp)

/-- The constructor of `Block`: stores the arguments, reads the clock, then sets
`hash = computeHash()`. -/
def Block.new (now : Int) (index : Int) (pixels : List Pixel) (prev_hash : String) : Block :=
  let blk : Block :=
    { index := index, pixels := pixels, timestamp := now, prev_hash := prev_hash, hash := "" }
  { blk with hash := blk.computeHash }

/-- The member `pixels` of `Blockchain`: an `unordered_map` from coordinates to pixels. -/
abbrev Registry := List ((Int × Int) × Pixel)

/-- The lookup `pixels.find(k)`: `none` stands for `pixels.end()`. -/
def Registry.find (m : Registry) (k : Int × Int) : Option Pixel := List.lookup k m

/-- The assignment `pixels[k] = v`: overwrites the entry of `k` if there is one, adds an
entry otherwise. -/
def Registry.assign : Registry → Int × Int → Pixel → Registry
  | [], k, v => [(k, v)]
  | (k', v') :: m, k, v =>
    if k' = k then (k, v) :: m else (k', v') :: Registry.assign m k v

/-- The private state of the class `Blockchain`. -/
structure Blockchain where
  chain : List Block
  pixels : Registry
  deriving DecidableEq, Repr

/-- The member `difficulty`, initialised to 2 and never assigned. -/
def difficulty : Nat := 2

/-- The pixel built first by the constructor of `Blockchain`. -/
def genesisPixel (now : Int) : Pixel := Pixel.new now 1 1 0 0 0 "Genesis" "" 0

/-- The constructor of `Blockchain`; `sodiumInit` is the value returned by `sodium_init()`,
`tPixel` and `tBlock` are the clock readings of the two constructors it runs. -/
def Blockchain.new (sodiumInit : Int) (tPixel tBlock : Int) : Except String Blockchain :=
  if sodiumInit < 0 then
    .error "Failed to initialize cryptographic library"
  else
    let genesisPixel := genesisPixel tPixel
    let genesisBlock := Block.new tBlock 0 [genesisPixel] "0"
    .ok { chain := [] ++ [genesisBlock], pixels := Registry.assign [] (1, 1) genesisPixel }

/-- The value held by a 32-bit two's-complement `int` after computing the integer `n`. -/
def wrapInt (n : Int) : Int := (n + 2147483648) % 4294967296 - 2147483648

/-- The method `Blockchain::manhattanDistance`; no other method calls it. -/
def manhattanDistance (x1 y1 x2 y2 : Int) : Int :=
  wrapInt (wrapInt ((wrapInt (x1 - x2)).natAbs) + wrapInt ((wrapInt (y1 - y2)).natAbs))

/-- The text hashed by `proofOfWork`: `ss << x << y << r << g << b << owner << nonce`. -/
def powInput (x y r g b : Int) (owner : String) (nonce : Int) : String :=
  dec x ++ dec y ++ dec r ++ dec g ++ dec b ++ owner ++ dec nonce

/-- The test that ends the search: `hash.substr(0, difficulty) == std::string(difficulty, '0')`. -/
def accepted (hash : String) : Bool :=
  decide (hash.data.take difficulty = List.replicate difficulty '0')

/-- The `do ... while` loop of `proofOfWork`, entered with the current value of `nonce`:
hash (repaired hex loop, `hexDigest`), increment, test, and on acceptance return
`nonce - 1`. -/
def proofOfWorkLoop (x y r g b : Int) (owner : String) : Nat → Int → Option Int
  | 0, _ => none
  | fuel + 1, nonce =>
    let hash := hexDigest (powInput x y r g b owner nonce)
    let nonce := wrapInt (nonce + 1)
    if accepted hash then some (wrapInt (nonce - 1))
    else proofOfWorkLoop x y r g b owner fuel nonce

/-- The method `Blockchain::proofOfWork`: the loop started at `nonce = 0`. -/
def proofOfWork (fuel : Nat) (x y r g b : Int) (owner : String) : Option Int :=
  proofOfWorkLoop x y r g b owner fuel 0

/-- The method `Blockchain::isPixelMined`. -/
def Blockchain.isPixelMined (bc : Blockchain) (x y : Int) : Bool :=
  (bc.pixels.find (x, y)).isSome

/-- The text `dataToSign` built by `minePixel`. -/
def dataToSign (x y r g b : Int) (owner : String) (nonce : Int) : String :=
  owner ++ dec x ++ dec y ++ dec r ++ dec g ++ dec b ++ dec nonce

/-- The method `Blockchain::minePixel`.  The result is the returned `bool` and the state
after the call; `none` means that the call does not return (search out of fuel, or
`chain.back()` on an empty chain).  `tPixel` and `tBlock` are the clock readings of the
`Pixel` and `Block` constructors.  The `int` index of the new block is `chain.size()`
converted modulo `2^32`. -/
def Blockchain.minePixel (bc : Blockchain) (fuel : Nat) (tPixel tBlock : Int)
    (x y r g b : Int) (owner : String) : Option (Bool × Blockchain) :=
  if bc.isPixelMined x y then
    some (false, bc)
  else
    match proofOfWork fuel x y r g b owner with
    | none => none
    | some nonce =>
      let signature := dataToSign x y r g b owner nonce
      let newPixel := Pixel.new tPixel x y r g b owner signature nonce
      let pixels := bc.pixels.assign (x, y) newPixel
      match bc.chain.getLast? with
      | none => none
      | some back =>
        let newBlock := Block.new tBlock (wrapInt bc.chain.length) [newPixel] back.hash
        some (true, { chain := bc.chain ++ [newBlock], pixels := pixels })

/-- The arguments of one `minePixel` call, with its fuel and clock readings. -/
structure Call where
  fuel : Nat
  tPixel : Int
  tBlock : Int
  x : Int
  y : Int
  r : Int
  g : Int
  b : Int
  owner : String
  deriving DecidableEq, Repr

/-- One call applied to a state. -/
def Blockchain.call (bc : Blockchain) (c : Call) : Option (Bool × Blockchain) :=
  bc.minePixel c.fuel c.tPixel c.tBlock c.x c.y c.r c.g c.b c.owner

/-- A sequence of `minePixel` calls issued one after the other: the returned booleans in
order and the final state. -/
def Blockchain.run : Blockchain → List Call → Option (List Bool × Blockchain)
  | bc, [] => some ([], bc)
  | bc, c :: cs =>
    match bc.call c with
    | none => none
    | some (ok, bc1) =>
      match Blockchain.run bc1 cs with
      | none => none
      | some (oks, bc2) => some (ok :: oks, bc2)

/-- The states a `Blockchain` object can be in: the result of the constructor, then of any
`minePixel` call that returns. -/
inductive Reachable : Blockchain → Prop
  | init (sodiumInit tPixel tBlock : Int) (bc : Blockchain) :
      Blockchain.new sodiumInit tPixel tBlock = .ok bc → Reachable bc
  | mine (bc : Blockchain) (fuel : Nat) (tPixel tBlock x y r g b : Int) (owner : String)
      (ok : Bool) (bc1 : Blockchain) :
      Reachable bc → bc.minePixel fuel tPixel tBlock x y r g b owner = some (ok, bc1) →
      Reachable bc1

/-- All pixels sealed in the chain, block by block. -/
def Blockchain.sealed (bc : Blockchain) : List Pixel := bc.chain.flatMap fun blk => blk.pixels

/-- The coordinate pair of a pixel. -/
def Pixel.coord (p : Pixel) : Int × Int := (p.x, p.y)

/-- Modelled from the spec: the operation `verify()` of the Chain component, which the
source does not implement.  For all `i > 0` it recomputes the hash of block `i` from its
own index, previous hash and timestamp, compares it with the stored hash, and compares the
stored previous hash with the hash of block `i - 1`. -/
def verify (chain : List Block) : Bool :=
  (List.range chain.length).all fun i =>
    decide (i = 0) ||
      match chain[i]?, chain[i - 1]? with
      | some blk, some prev =>
        decide (blk.computeHash = blk.hash) && decide (blk.prev_hash = prev.hash)
      | _, _ => true

/-! ## A sample ledger -/

/-- The genesis pixel built at clock reading 1739836800. -/
def originPixel : Pixel :=
  { x := 1, y := 1, r := 0, g := 0, b := 0, owner := "Genesis", timestamp := 1739836800,
    signature := "", nonce := 0 }

/-- The genesis block built at clock reading 1739836800. -/
def originBlock : Block :=
  { index := 0,
    pixels := [originPixel],
    timestamp := 1739836800,
    prev_hash := "0",
    hash := "c992b7ea5cf1ad8d56b23ae50a0b8af34fd10baa5cb033d7bb7eb685d3816eb1" }

/-- The ledger just after construction, with `sodium_init() = 0` and both clock readings
equal to 1739836800. -/
def ledger0 : Blockchain :=
  { chain := [originBlock], pixels := [((1, 1), originPixel)] }

/-- The pixel mined by `minePixel(0, 7, 9, 9, 9, "Alice")` at clock reading 1739836801; the
search ends at nonce 2. -/
def alicePixel : Pixel :=
  { x := 0, y := 7, r := 9, g := 9, b := 9, owner := "Alice", timestamp := 1739836801,
    signature := "Alice079992", nonce := 2 }

/-- The block sealing `alicePixel` on top of `ledger0`. -/
def aliceBlock : Block :=
  { index := 1,
    pixels := [alicePixel],
    timestamp := 1739836801,
    prev_hash := "c992b7ea5cf1ad8d56b23ae50a0b8af34fd10baa5cb033d7bb7eb685d3816eb1",
    hash := "8c5edba6d706566c521ef80f15f2bdab0a0023e0a92b6d6438b7c6d32445393f" }

/-- The ledger `ledger0` after the call `minePixel(0, 7, 9, 9, 9, "Alice")`. -/
def ledger1 : Blockchain :=
  { chain := [originBlock, aliceBlock],
    pixels := [((1, 1), originPixel), ((0, 7), alicePixel)] }

/-- The pixel mined by `minePixel(1, 12, 2, 3, 3, "User1")` at clock reading 1739836801; the
search ends at nonce 5. -/
def user1Pixel : Pixel :=
  { x := 1, y := 12, r := 2, g := 3, b := 3, owner := "User1", timestamp := 1739836801,
    signature := "User11122335", nonce := 5 }

/-- The ledger `ledger0` after the call `minePixel(1, 12, 2, 3, 3, "User1")`. -/
def ledger2 : Blockchain :=
  { chain := [originBlock,
      { index := 1,
        pixels := [user1Pixel],
        timestamp := 1739836801,
        prev_hash := "c992b7ea5cf1ad8d56b23ae50a0b8af34fd10baa5cb033d7bb7eb685d3816eb1",
        hash := "8c5edba6d706566c521ef80f15f2bdab0a0023e0a92b6d6438b7c6d32445393f" }],
    pixels := [((1, 1), originPixel), ((1, 12), user1Pixel)] }

/-! ## Lemmas -/

set_option maxRecDepth 100000

/-- The digest of the empty message is the published one. -/
theorem SHA256_empty :
    hexDigest "" = "e3b0c44298fc1c149afbf4c8996fb92427ae41e4649b934ca495991b7852b855" := by
  decide

/-- The digest of `abc` is the published one. -/
theorem SHA256_abc :
    hexDigest "abc" = "ba7816bf8f01cfea414140de5dae2223b00361a396177a9cb410ff61f20015ad" := by
  decide

/-- The digest of a message that spans two blocks is the published one. -/
theorem SHA256_two_blocks :
    hexDigest "abcdbcdecdefdefgefghfghighijhijkijkljklmklmnlmnomnopnopq"
      = "248d6a61d20638b8e5c026930c3e6039a33ce45964ff2167f6ecedd419db06c1" := by
  decide

/-- After `pixels[k] = v` the lookup of `k` finds `v`. -/
theorem Registry.find_assign_self (m : Registry) (k : Int × Int) (v : Pixel) :
    (Registry.assign m k v).find k = some v := by
  induction m with
  | nil => simp [Registry.assign, Registry.find, List.lookup]
  | cons e m ih =>
    obtain ⟨k', v'⟩ := e
    by_cases h : k' = k
    · simp [Registry.assign, Registry.find, List.lookup, h]
    · have h2 : (k == k') = false := by simpa using fun h3 => h h3.symm
      simp only [Registry.assign, Registry.find, List.lookup, h, h2, if_false]
      exact ih

/-- The assignment `pixels[k] = v` does not change the lookup of another key. -/
theorem Registry.find_assign_ne (m : Registry) (k k' : Int × Int) (v : Pixel) (hne : k' ≠ k) :
    (Registry.assign m k v).find k' = m.find k' := by
  induction m with
  | nil =>
    have h2 : (k' == k) = false := by simpa using hne
    simp [Registry.assign, Registry.find, List.lookup, h2]
  | cons e m ih =>
    obtain ⟨k0, v0⟩ := e
    by_cases h : k0 = k
    · subst h
      have h2 : (k' == k0) = false := by simpa using hne
      simp [Registry.assign, Registry.find, List.lookup, h2]
    · simp only [Registry.assign, h, if_false, Registry.find, List.lookup]
      cases hk : (k' == k0)
      · exact ih
      · rfl

/-- Assigning to a key that has no entry appends one entry and keeps the others. -/
theorem Registry.assign_of_find_none (m : Registry) (k : Int × Int) (v : Pixel)
    (h : m.find k = none) : Registry.assign m k v = m ++ [(k, v)] := by
  induction m with
  | nil => rfl
  | cons e m ih =>
    obtain ⟨k0, v0⟩ := e
    by_cases hk : k0 = k
    · subst hk
      simp [Registry.find, List.lookup] at h
    · have h2 : (k == k0) = false := by simpa using fun h3 => hk h3.symm
      simp only [Registry.find, List.lookup, h2] at h
      simp only [Registry.assign, hk, if_false, List.cons_append]
      rw [ih h]



/-- On a mined cell `minePixel` returns false at once and keeps the state. -/
theorem minePixel_of_mined (bc : Blockchain) (fuel : Nat) (tPixel tBlock x y r g b : Int)
    (owner : String) (h : bc.isPixelMined x y = true) :
    bc.minePixel fuel tPixel tBlock x y r g b owner = some (false, bc) := by
  simp [Blockchain.minePixel, h]

/-- On a fresh cell, once the search and `chain.back()` have returned, `minePixel` returns
true with the new block appended and the new pixel registered. -/
theorem minePixel_of_fresh (bc : Blockchain) (fuel : Nat) (tPixel tBlock x y r g b : Int)
    (owner : String) (nonce : Int) (back : Block) (h : bc.isPixelMined x y = false)
    (hpow : proofOfWork fuel x y r g b owner = some nonce) (hback : bc.chain.getLast? = some back) :
    bc.minePixel fuel tPixel tBlock x y r g b owner =
      some (true, Blockchain.mk
        (bc.chain ++ [Block.new tBlock (wrapInt bc.chain.length)
          [Pixel.new tPixel x y r g b owner (dataToSign x y r g b owner nonce) nonce] back.hash])
        (bc.pixels.assign (x, y)
          (Pixel.new tPixel x y r g b owner (dataToSign x y r g b owner nonce) nonce))) := by
  simp [Blockchain.minePixel, h, hpow, hback]

/-- The two ways in which a `minePixel` call returns. -/
theorem minePixel_cases (bc bc1 : Blockchain) (fuel : Nat) (tPixel tBlock x y r g b : Int)
    (owner : String) (ok : Bool)
    (h : bc.minePixel fuel tPixel tBlock x y r g b owner = some (ok, bc1)) :
    (ok = false ∧ bc1 = bc ∧ bc.isPixelMined x y = true) ∨
    (ok = true ∧ bc.isPixelMined x y = false ∧ ∃ nonce back,
      proofOfWork fuel x y r g b owner = some nonce ∧ bc.chain.getLast? = some back ∧
      bc1 = Blockchain.mk
        (bc.chain ++ [Block.new tBlock (wrapInt bc.chain.length)
          [Pixel.new tPixel x y r g b owner (dataToSign x y r g b owner nonce) nonce] back.hash])
        (bc.pixels.assign (x, y)
          (Pixel.new tPixel x y r g b owner (dataToSign x y r g b owner nonce) nonce))) := by
  cases hm : bc.isPixelMined x y
  · right
    cases hpow : proofOfWork fuel x y r g b owner with
    | none => simp [Blockchain.minePixel, hm, hpow] at h
    | some nonce =>
      cases hback : bc.chain.getLast? with
      | none => simp [Blockchain.minePixel, hm, hpow, hback] at h
      | some back =>
        rw [minePixel_of_fresh bc fuel tPixel tBlock x y r g b owner nonce back hm hpow hback] at h
        simp only [Option.some.injEq, Prod.mk.injEq] at h
        exact ⟨h.1.symm, rfl, nonce, back, rfl, rfl, h.2.symm⟩
  · left
    rw [minePixel_of_mined bc fuel tPixel tBlock x y r g b owner hm] at h
    simp only [Option.some.injEq, Prod.mk.injEq] at h
    exact ⟨h.1.symm, h.2.symm, rfl⟩

/-- The state built by the constructor when `sodium_init()` does not fail. -/
theorem new_eq (sodiumInit tPixel tBlock : Int) (h : 0 ≤ sodiumInit) :
    Blockchain.new sodiumInit tPixel tBlock =
      .ok { chain := [Block.new tBlock 0 [genesisPixel tPixel] "0"],
            pixels := [((1, 1), genesisPixel tPixel)] } := by
  have h2 : ¬ sodiumInit < 0 := not_lt.mpr h
  simp [Blockchain.new, h2, Registry.assign]

/-- Every state returned by the constructor has that form. -/
theorem new_cases (sodiumInit tPixel tBlock : Int) (bc : Blockchain)
    (h : Blockchain.new sodiumInit tPixel tBlock = .ok bc) :
    bc = { chain := [Block.new tBlock 0 [genesisPixel tPixel] "0"],
           pixels := [((1, 1), genesisPixel tPixel)] } := by
  by_cases hs : sodiumInit < 0
  · simp [Blockchain.new, hs] at h
  · rw [new_eq sodiumInit tPixel tBlock (not_lt.mp hs)] at h
    simp only [Except.ok.injEq] at h
    exact h.symm

/-- Appending a block appends its pixels to the sealed pixels. -/
theorem sealed_append (chain : List Block) (pixels pixels1 : Registry) (blk : Block) :
    (Blockchain.mk (chain ++ [blk]) pixels1).sealed = (Blockchain.mk chain pixels).sealed ++ blk.pixels := by
  simp [Blockchain.sealed]

/-- In a reachable state the sealed pixels have pairwise distinct coordinates, and the
registry holds exactly the sealed pixels, each under its own coordinates. -/
theorem reachable_registry (bc : Blockchain) (h : Reachable bc) :
    (bc.sealed.map Pixel.coord).Nodup ∧
      ∀ k p, bc.pixels.find k = some p ↔ (p ∈ bc.sealed ∧ p.coord = k) := by
  induction h with
  | init s tp tb bc hnew =>
    rw [new_cases s tp tb bc hnew]
    refine ⟨by simp [Blockchain.sealed, Block.new], ?_⟩
    intro k p
    by_cases hk : k = (1, 1)
    · subst hk
      simp only [Registry.find, List.lookup, beq_self_eq_true, Blockchain.sealed, Block.new,
        List.flatMap_cons, List.flatMap_nil, List.append_nil, List.mem_singleton,
        Option.some.injEq]
      constructor
      · intro h; subst h; exact ⟨rfl, rfl⟩
      · intro h; exact h.1.symm
    · have h2 : (k == ((1 : Int), (1 : Int))) = false := by simpa using hk
      simp only [Registry.find, List.lookup, h2, Blockchain.sealed, Block.new,
        List.flatMap_cons, List.flatMap_nil, List.append_nil, List.mem_singleton]
      constructor
      · intro h; cases h
      · intro h
        exfalso
        apply hk
        rw [← h.2, h.1]
        rfl
  | mine bc fuel tp tb x y r g b owner ok bc1 _ hstep ih =>
    rcases minePixel_cases bc bc1 fuel tp tb x y r g b owner ok hstep with
      ⟨_, hbc, _⟩ | ⟨_, hfresh, nonce, back, _, _, hbc⟩
    · rw [hbc]; exact ih
    · obtain ⟨hnd, hreg⟩ := ih
      have hnone : bc.pixels.find (x, y) = none := by
        simpa [Blockchain.isPixelMined] using hfresh
      have hnot : ∀ p ∈ bc.sealed, p.coord ≠ (x, y) := by
        intro p hp hc
        have := (hreg (x, y) p).mpr ⟨hp, hc⟩
        rw [hnone] at this
        cases this
      have hs : bc1.sealed = bc.sealed ++
          [Pixel.new tp x y r g b owner (dataToSign x y r g b owner nonce) nonce] := by
        rw [hbc]
        exact sealed_append bc.chain bc.pixels _ _
      rw [hs]
      constructor
      · rw [List.map_append, List.nodup_append]
        refine ⟨hnd, List.nodup_singleton _, ?_⟩
        intro c hc hc2
        simp only [List.map_cons, List.map_nil, List.mem_singleton] at hc2
        obtain ⟨p, hp, hpc⟩ := List.mem_map.mp hc
        exact hnot p hp (hpc.trans hc2)
      · intro k p
        rw [hbc]
        simp only [List.mem_append, List.mem_singleton]
        by_cases hk : k = (x, y)
        · subst hk
          rw [Registry.find_assign_self]
          constructor
          · intro h
            simp only [Option.some.injEq] at h
            subst h
            exact ⟨Or.inr rfl, rfl⟩
          · rintro ⟨hp | hp, hc⟩
            · exact absurd hc (hnot p hp)
            · rw [hp]
        · rw [Registry.find_assign_ne _ _ _ _ hk, hreg k p]
          constructor
          · rintro ⟨hp, hc⟩; exact ⟨Or.inl hp, hc⟩
          · rintro ⟨hp | hp, hc⟩
            · exact ⟨hp, hc⟩
            · exfalso; apply hk; rw [← hc, hp]; rfl

/-- On a non-negative `int`, `nonce++` followed by `nonce - 1` gives the value back, also at
`INT_MAX`. -/
theorem wrapInt_succ_pred (n : Int) (h0 : 0 ≤ n) (h1 : n < 2147483648) :
    wrapInt (wrapInt (n + 1) - 1) = n := by
  unfold wrapInt
  omega

/-- Below `INT_MAX` the increment does not wrap. -/
theorem wrapInt_succ (n : Int) (h0 : 0 ≤ n) (h1 : n + 1 < 2147483648) :
    wrapInt (n + 1) = n + 1 := by
  unfold wrapInt
  omega

/-- The loop exit test holds exactly when the hash begins with `difficulty` characters
`'0'`. -/
theorem accepted_iff (hash : String) :
    accepted hash = true ↔ List.replicate difficulty '0' <+: hash.data := by
  unfold accepted
  rw [decide_eq_true_iff]
  constructor
  · intro h
    rw [← h]
    exact List.take_prefix _ _
  · intro h
    have := List.prefix_iff_eq_take.mp h
    rw [List.length_replicate] at this
    exact this.symm

/-- The loop entered at `n` returns `n + d` when `n + d` is the first accepted nonce from
`n` on and the fuel exceeds `d`. -/
theorem proofOfWorkLoop_least (x y r g b : Int) (owner : String) (d : Nat) :
    ∀ (n : Int) (fuel : Nat), 0 ≤ n → n + d < 2147483648 →
      (∀ i : Nat, i < d → accepted (hexDigest (powInput x y r g b owner (n + i))) = false) →
      accepted (hexDigest (powInput x y r g b owner (n + d))) = true → d < fuel →
      proofOfWorkLoop x y r g b owner fuel n = some (n + d) := by
  induction d with
  | zero =>
    intro n fuel h0 h1 _ hacc hfuel
    obtain ⟨f, rfl⟩ : ∃ f, fuel = f + 1 := ⟨fuel - 1, by omega⟩
    simp only [Nat.cast_zero, add_zero] at hacc h1 ⊢
    simp only [proofOfWorkLoop, hacc, if_true]
    rw [wrapInt_succ_pred n h0 h1]
  | succ d ih =>
    intro n fuel h0 h1 hmiss hacc hfuel
    obtain ⟨f, rfl⟩ : ∃ f, fuel = f + 1 := ⟨fuel - 1, by omega⟩
    have hn : accepted (hexDigest (powInput x y r g b owner n)) = false := by
      simpa using hmiss 0 (Nat.succ_pos d)
    have hstep : wrapInt (n + 1) = n + 1 := wrapInt_succ n h0 (by push_cast at h1; omega)
    simp only [proofOfWorkLoop, hn, hstep]
    have := ih (n + 1) f (by omega) (by push_cast at h1 ⊢; omega)
      (fun i hi => by
        have := hmiss (i + 1) (by omega)
        push_cast at this
        rw [show n + 1 + (i : Int) = n + ((i : Int) + 1) by ring]
        exact this)
      (by
        push_cast at hacc
        rw [show n + 1 + (d : Int) = n + ((d : Int) + 1) by ring]
        exact hacc)
      (by omega)
    rw [show n + ((d + 1 : Nat) : Int) = n + 1 + (d : Int) by push_cast; ring]
    simpa using this

/-- If some nonce in the non-negative range of `int` is accepted, `proofOfWork` returns the
least accepted nonce for every sufficient fuel. -/
theorem proofOfWork_least (x y r g b : Int) (owner : String) (j : Int) (h0 : 0 ≤ j)
    (h1 : j < 2147483648) (hj : accepted (hexDigest (powInput x y r g b owner j)) = true) :
    ∃ k : Int, 0 ≤ k ∧ k ≤ j ∧
      (∀ fuel : Nat, k < fuel → proofOfWork fuel x y r g b owner = some k) ∧
      accepted (hexDigest (powInput x y r g b owner k)) = true ∧
      ∀ i : Int, 0 ≤ i → i < k → accepted (hexDigest (powInput x y r g b owner i)) = false := by
  have hex : ∃ m : Nat, accepted (hexDigest (powInput x y r g b owner (m : Int))) = true :=
    ⟨j.toNat, by rw [Int.toNat_of_nonneg h0]; exact hj⟩
  have hk := Nat.find_spec hex
  have hle : Nat.find hex ≤ j.toNat :=
    Nat.find_min' hex (by rw [Int.toNat_of_nonneg h0]; exact hj)
  have hmin : ∀ i : Nat, i < Nat.find hex →
      accepted (hexDigest (powInput x y r g b owner (i : Int))) = false := fun i hi => by
    simpa using Nat.find_min hex hi
  refine ⟨(Nat.find hex : Nat), by omega, by omega, ?_, hk, ?_⟩
  · intro fuel hfuel
    have := proofOfWorkLoop_least x y r g b owner (Nat.find hex) 0 fuel le_rfl (by omega)
      (fun i hi => by simpa using hmin i hi) (by simpa using hk) (by omega)
    simpa [proofOfWork] using this
  · intro i hi0 hik
    have := hmin i.toNat (by omega)
    rwa [Int.toNat_of_nonneg hi0] at this

/-- On a fresh cell of a state with a non-empty chain, a terminating search makes
`minePixel` return true; the cell is mined afterwards and no other cell changes status. -/
theorem minePixel_success (bc : Blockchain) (fuel : Nat) (tPixel tBlock x y r g b : Int)
    (owner : String) (nonce : Int) (hfresh : bc.isPixelMined x y = false)
    (hchain : bc.chain ≠ []) (hpow : proofOfWork fuel x y r g b owner = some nonce) :
    ∃ bc1, bc.minePixel fuel tPixel tBlock x y r g b owner = some (true, bc1) ∧
      bc1.chain.length = bc.chain.length + 1 ∧ bc1.isPixelMined x y = true ∧
      ∀ x1 y1, (x1, y1) ≠ (x, y) → bc1.isPixelMined x1 y1 = bc.isPixelMined x1 y1 := by
  cases hback : bc.chain.getLast? with
  | none => exact absurd (List.getLast?_eq_none_iff.mp hback) hchain
  | some back =>
    refine ⟨_, minePixel_of_fresh bc fuel tPixel tBlock x y r g b owner nonce back hfresh hpow
      hback, by simp, ?_, ?_⟩
    · simp [Blockchain.isPixelMined, Registry.find_assign_self]
    · intro x1 y1 hne
      simp [Blockchain.isPixelMined, Registry.find_assign_ne _ _ _ _ hne]

/-- The sample ledger `ledger0` is the result of the constructor. -/
theorem ledger0_new : Blockchain.new 0 1739836800 1739836800 = .ok ledger0 := by
  rw [new_eq 0 1739836800 1739836800 (by decide)]
  exact congrArg Except.ok (by decide)

/-- The sample ledger `ledger1` is the result of mining (0,7) on `ledger0`. -/
theorem ledger1_mine :
    ledger0.minePixel 3 1739836801 1739836801 0 7 9 9 9 "Alice" = some (true, ledger1) := by
  decide

/-- The sample ledger `ledger0` is reachable. -/
theorem ledger0_reachable : Reachable ledger0 :=
  Reachable.init 0 1739836800 1739836800 ledger0 ledger0_new

/-- The sample ledger `ledger1` is reachable. -/
theorem ledger1_reachable : Reachable ledger1 :=
  Reachable.mine ledger0 3 1739836801 1739836801 0 7 9 9 9 "Alice" true ledger1
    ledger0_reachable ledger1_mine

/-- A sequence of calls leads from reachable states to reachable states. -/
theorem run_reachable (calls : List Call) :
    ∀ (bc bc2 : Blockchain) (oks : List Bool), Reachable bc → bc.run calls = some (oks, bc2) →
      Reachable bc2 := by
  induction calls with
  | nil =>
    intro bc bc2 oks hre h
    simp only [Blockchain.run, Option.some.injEq, Prod.mk.injEq] at h
    rw [← h.2]; exact hre
  | cons c cs ih =>
    intro bc bc2 oks hre h
    cases hc : bc.call c with
    | none => simp [Blockchain.run, hc] at h
    | some res =>
      obtain ⟨ok, bc1⟩ := res
      cases hr : bc1.run cs with
      | none => simp [Blockchain.run, hc, hr] at h
      | some res2 =>
        obtain ⟨oks2, bc3⟩ := res2
        simp only [Blockchain.run, hc, hr, Option.some.injEq, Prod.mk.injEq] at h
        rw [← h.2]
        exact ih bc1 bc3 oks2
          (Reachable.mine bc c.fuel c.tPixel c.tBlock c.x c.y c.r c.g c.b c.owner ok bc1 hre hc)
          hr

/-- A block leaves its constructor with `hash` equal to `computeHash()`. -/
theorem computeHash_new (now index : Int) (pixels : List Pixel) (prev_hash : String) :
    (Block.new now index pixels prev_hash).hash
      = (Block.new now index pixels prev_hash).computeHash := rfl

/-- In a reachable state the chain is not empty, every block stores its own recomputed hash,
and every block after the first stores the hash of its predecessor. -/
theorem reachable_chain (bc : Blockchain) (h : Reachable bc) :
    bc.chain ≠ [] ∧ ∀ i blk, bc.chain[i]? = some blk →
      blk.hash = blk.computeHash ∧
      ∀ prev, 0 < i → bc.chain[i - 1]? = some prev → blk.prev_hash = prev.hash := by
  induction h with
  | init s tp tb bc hnew =>
    rw [new_cases s tp tb bc hnew]
    refine ⟨List.cons_ne_nil _ _, ?_⟩
    intro i blk hblk
    cases i with
    | zero =>
      simp only [List.getElem?_cons_zero, Option.some.injEq] at hblk
      subst hblk
      exact ⟨rfl, fun prev h0 _ => absurd h0 (lt_irrefl 0)⟩
    | succ i => simp at hblk
  | mine bc fuel tp tb x y r g b owner ok bc1 _ hstep ih =>
    rcases minePixel_cases bc bc1 fuel tp tb x y r g b owner ok hstep with
      ⟨_, hbc, _⟩ | ⟨_, _, nonce, back, _, hback, hbc⟩
    · rw [hbc]; exact ih
    · obtain ⟨hne, hinv⟩ := ih
      rw [hbc]
      refine ⟨by simp, ?_⟩
      intro i blk hblk
      simp only at hblk ⊢
      by_cases hi : i < bc.chain.length
      · rw [List.getElem?_append_left hi] at hblk
        refine ⟨(hinv i blk hblk).1, ?_⟩
        intro prev h0 hprev
        rw [List.getElem?_append_left (by omega)] at hprev
        exact (hinv i blk hblk).2 prev h0 hprev
      · rw [List.getElem?_append_right (by omega)] at hblk
        have hi2 : i = bc.chain.length := by
          by_contra hne2
          have : 0 < i - bc.chain.length := by omega
          obtain ⟨m, hm⟩ : ∃ m, i - bc.chain.length = m + 1 := ⟨i - bc.chain.length - 1, by omega⟩
          rw [hm] at hblk
          simp at hblk
        subst hi2
        simp only [Nat.sub_self, List.getElem?_cons_zero, Option.some.injEq] at hblk
        subst hblk
        refine ⟨rfl, ?_⟩
        intro prev h0 hprev
        rw [List.getElem?_append_left (by omega), ← List.getLast?_eq_getElem?, hback] at hprev
        simp only [Option.some.injEq] at hprev
        rw [← hprev]
        rfl

/-- What `verify` checks, position by position. -/
theorem verify_iff (chain : List Block) :
    verify chain = true ↔ ∀ i blk prev, 0 < i → chain[i]? = some blk →
      chain[i - 1]? = some prev → blk.computeHash = blk.hash ∧ blk.prev_hash = prev.hash := by
  unfold verify
  rw [List.all_eq_true]
  constructor
  · intro h i blk prev h0 hblk hprev
    have hi : i < chain.length := by
      by_contra hge
      rw [List.getElem?_eq_none (by omega)] at hblk
      cases hblk
    have := h i (List.mem_range.mpr hi)
    rw [hblk, hprev] at this
    simpa [Nat.pos_iff_ne_zero.mp h0] using this
  · intro h i _
    by_cases h0 : i = 0
    · simp [h0]
    · cases hblk : chain[i]? with
      | none => simp
      | some blk =>
        cases hprev : chain[i - 1]? with
        | none => simp
        | some prev =>
          have := h i blk prev (Nat.pos_of_ne_zero h0) hblk hprev
          simp [h0, this.1, this.2]

/-- The chain of a reachable state passes `verify`. -/
theorem reachable_verify (bc : Blockchain) (h : Reachable bc) : verify bc.chain = true := by
  rw [verify_iff]
  intro i blk prev h0 hblk hprev
  have := (reachable_chain bc h).2 i blk hblk
  exact ⟨this.1.symm, this.2 prev h0 hprev⟩

/-- In a reachable state a non-genesis block is linked to its predecessor and stores its own
recomputed hash. -/
theorem reachable_link (bc : Blockchain) (h : Reachable bc) (i : Nat) (blk prev : Block)
    (h0 : 0 < i) (hblk : bc.chain[i]? = some blk) (hprev : bc.chain[i - 1]? = some prev) :
    blk.prev_hash = prev.hash ∧ blk.hash = blk.computeHash :=
  ⟨((reachable_chain bc h).2 i blk hblk).2 prev h0 hprev, ((reachable_chain bc h).2 i blk hblk).1⟩

/-- The value returned on acceptance is the nonce that was hashed, also when the increment
wraps. -/
theorem wrapInt_return (t : Nat) : wrapInt (wrapInt (wrapInt t + 1) - 1) = wrapInt t := by
  unfold wrapInt
  omega

/-- The increment of the counter, in terms of the number of iterations made. -/
theorem wrapInt_step (t : Nat) : wrapInt (wrapInt t + 1) = wrapInt ((t + 1 : Nat) : Int) := by
  unfold wrapInt
  push_cast
  omega

/-- Any value returned by the loop entered at iteration `t0` is the nonce of some iteration
`t` from `t0` on, whose hash is accepted, every earlier iteration from `t0` on having been
rejected. -/
theorem proofOfWorkLoop_sound (x y r g b : Int) (owner : String) (fuel : Nat) :
    ∀ (t0 : Nat) (k : Int), proofOfWorkLoop x y r g b owner fuel (wrapInt t0) = some k →
      ∃ t : Nat, t0 ≤ t ∧ k = wrapInt t ∧
        accepted (hexDigest (powInput x y r g b owner k)) = true ∧
        ∀ i : Nat, t0 ≤ i → i < t →
          accepted (hexDigest (powInput x y r g b owner (wrapInt i))) = false := by
  induction fuel with
  | zero => intro t0 k h; simp [proofOfWorkLoop] at h
  | succ fuel ih =>
    intro t0 k h
    cases hacc : accepted (hexDigest (powInput x y r g b owner (wrapInt t0)))
    · simp only [proofOfWorkLoop, hacc, wrapInt_step] at h
      obtain ⟨t, ht0, hk, hk2, hmin⟩ := ih (t0 + 1) k (by simpa using h)
      refine ⟨t, by omega, hk, hk2, ?_⟩
      intro i hi hit
      by_cases hi0 : i = t0
      · rw [hi0]; exact hacc
      · exact hmin i (by omega) hit
    · simp only [proofOfWorkLoop, hacc, if_true, Option.some.injEq, wrapInt_return] at h
      refine ⟨t0, le_rfl, h.symm, by rw [← h]; exact hacc, ?_⟩
      intro i hi hit
      omega

/-- Any value returned by `proofOfWork` is accepted, and no smaller non-negative nonce is. -/
theorem proofOfWork_sound (x y r g b : Int) (owner : String) (fuel : Nat) (k : Int)
    (h : proofOfWork fuel x y r g b owner = some k) :
    accepted (hexDigest (powInput x y r g b owner k)) = true ∧
      ∀ i : Int, 0 ≤ i → i < k →
        accepted (hexDigest (powInput x y r g b owner i)) = false := by
  have h0 : proofOfWorkLoop x y r g b owner fuel (wrapInt (0 : Nat)) = some k := by
    simpa [proofOfWork, wrapInt] using h
  obtain ⟨t, _, hk, hacc, hmin⟩ := proofOfWorkLoop_sound x y r g b owner fuel 0 k h0
  refine ⟨hacc, ?_⟩
  intro i hi0 hik
  have hit : i.toNat < t := by
    rw [hk] at hik
    unfold wrapInt at hik
    omega
  have := hmin i.toNat (Nat.zero_le _) hit
  have hw : wrapInt (i.toNat : Int) = i := by
    rw [hk] at hik
    unfold wrapInt at hik ⊢
    omega
  simp only [hw] at this
  exact this



/-- A property of positioned blocks that holds of the genesis block at position 0 and of
every block appended by `minePixel` at the end of a reachable chain holds of every block of
every reachable chain. -/
theorem reachable_blocks (P : Nat → Block → Prop)
    (hgen : ∀ tPixel tBlock : Int, P 0 (Block.new tBlock 0 [genesisPixel tPixel] "0"))
    (hnew : ∀ (bc : Blockchain) (fuel : Nat) (tPixel tBlock x y r g b : Int) (owner : String)
      (nonce : Int) (back : Block), Reachable bc → bc.isPixelMined x y = false →
      proofOfWork fuel x y r g b owner = some nonce → bc.chain.getLast? = some back →
      P bc.chain.length (Block.new tBlock (wrapInt bc.chain.length)
        [Pixel.new tPixel x y r g b owner (dataToSign x y r g b owner nonce) nonce] back.hash))
    (bc : Blockchain) (h : Reachable bc) :
    ∀ i blk, bc.chain[i]? = some blk → P i blk := by
  induction h with
  | init s tp tb bc hnew0 =>
    rw [new_cases s tp tb bc hnew0]
    intro i blk hblk
    cases i with
    | zero =>
      simp only [List.getElem?_cons_zero, Option.some.injEq] at hblk
      subst hblk
      exact hgen tp tb
    | succ i => simp at hblk
  | mine bc fuel tp tb x y r g b owner ok bc1 hre hstep ih =>
    rcases minePixel_cases bc bc1 fuel tp tb x y r g b owner ok hstep with
      ⟨_, hbc, _⟩ | ⟨_, hfresh, nonce, back, hpow, hback, hbc⟩
    · rw [hbc]; exact ih
    · rw [hbc]
      intro i blk hblk
      simp only at hblk
      by_cases hi : i < bc.chain.length
      · rw [List.getElem?_append_left hi] at hblk
        exact ih i blk hblk
      · rw [List.getElem?_append_right (by omega)] at hblk
        have hi2 : i = bc.chain.length := by
          by_contra hne2
          obtain ⟨m, hm⟩ : ∃ m, i - bc.chain.length = m + 1 := ⟨i - bc.chain.length - 1, by omega⟩
          rw [hm] at hblk
          simp at hblk
        subst hi2
        simp only [Nat.sub_self, List.getElem?_cons_zero, Option.some.injEq] at hblk
        subst hblk
        exact hnew bc fuel tp tb x y r g b owner nonce back hre hfresh hpow hback

/-- Below `2^31` the conversion of a size to `int` is exact. -/
theorem wrapInt_size (n : Nat) (h : n < 2147483648) : wrapInt n = n := by
  unfold wrapInt
  omega

/-- In a reachable state every block stores its own position, converted to `int`, as
index. -/
theorem reachable_index (bc : Blockchain) (h : Reachable bc) (i : Nat) (blk : Block)
    (hblk : bc.chain[i]? = some blk) : blk.index = wrapInt i :=
  reachable_blocks (fun i blk => blk.index = wrapInt i)
    (fun _ _ => (wrapInt_size 0 (by decide)).symm)
    (fun _ _ _ _ _ _ _ _ _ _ _ _ _ _ _ _ => rfl) bc h i blk hblk

/-- In a reachable state every pixel of a block after the first carries a nonce that is
accepted for the pixel's own fields, no smaller non-negative nonce being accepted. -/
theorem reachable_sealed_pow (bc : Blockchain) (h : Reachable bc) (i : Nat) (blk : Block)
    (hblk : bc.chain[i]? = some blk) (h0 : 0 < i) (p : Pixel) (hp : p ∈ blk.pixels) :
    accepted (hexDigest (powInput p.x p.y p.r p.g p.b p.owner p.nonce)) = true ∧
      ∀ j : Int, 0 ≤ j → j < p.nonce →
        accepted (hexDigest (powInput p.x p.y p.r p.g p.b p.owner j)) = false := by
  refine reachable_blocks (fun i blk => 0 < i → ∀ p ∈ blk.pixels,
    accepted (hexDigest (powInput p.x p.y p.r p.g p.b p.owner p.nonce)) = true ∧
      ∀ j : Int, 0 ≤ j → j < p.nonce →
        accepted (hexDigest (powInput p.x p.y p.r p.g p.b p.owner j)) = false)
    (fun _ _ h0 => absurd h0 (lt_irrefl 0)) ?_ bc h i blk hblk h0 p hp
  intro bc fuel tp tb x y r g b owner nonce back _ _ hpow _ _ p hp
  simp only [Block.new, List.mem_singleton] at hp
  subst hp
  exact proofOfWork_sound x y r g b owner fuel nonce hpow

/-- Every hexadecimal digit character is one of `0`..`9`, `a`..`f`. -/
theorem digitChar_hex (n : Nat) (h : n < 16) : Nat.digitChar n ∈ "0123456789abcdef".data := by
  interval_cases n <;> decide

/-- The digest built by the repaired loop has 64 characters. -/
theorem hexDigest_length (s : String) : (hexDigest s).length = 64 := by
  simp [hexDigest, String.length, SHA256, wordBytes, hexByte]

/-- Every character of the digest built by the repaired loop is a lowercase hexadecimal
digit. -/
theorem hexDigest_chars (s : String) (c : Char) (hc : c ∈ (hexDigest s).data) :
    c ∈ "0123456789abcdef".data := by
  simp only [hexDigest, List.mem_flatMap, hexByte, List.mem_cons, List.mem_singleton,
    List.not_mem_nil, or_false] at hc
  obtain ⟨i, _, hi | hi⟩ := hc
  · rw [hi]; exact digitChar_hex _ (Nat.mod_lt _ (by decide))
  · rw [hi]; exact digitChar_hex _ (Nat.mod_lt _ (by decide))

/-- Appending the same text on the right of two strings gives equal strings only if the two
strings are equal. -/
theorem string_append_right_cancel (a b c : String) (h : a ++ c = b ++ c) : a = b := by
  have := congrArg String.data h
  simp only [String.data_append] at this
  exact String.ext (List.append_cancel_right this)

/-- The text hashed by `proofOfWork` equals the text signed by `minePixel` exactly when the
owner commutes with the five numbers. -/
theorem powInput_eq_dataToSign_iff (x y r g b : Int) (owner : String) (k : Int) :
    powInput x y r g b owner k = dataToSign x y r g b owner k ↔
      (dec x ++ dec y ++ dec r ++ dec g ++ dec b) ++ owner
        = owner ++ (dec x ++ dec y ++ dec r ++ dec g ++ dec b) := by
  have hsig : dataToSign x y r g b owner k
      = owner ++ (dec x ++ dec y ++ dec r ++ dec g ++ dec b) ++ dec k := by
    simp only [dataToSign, String.append_assoc]
  rw [hsig]
  constructor
  · intro h
    exact string_append_right_cancel _ _ (dec k) h
  · intro h
    rw [← h]
    rfl

/-- The loops of `proofOfWork` on the cells (1,12) and (11,2) return the same value. -/
theorem proofOfWorkLoop_collide (r g b : Int) (owner : String) (fuel : Nat) :
    ∀ nonce : Int, proofOfWorkLoop 1 12 r g b owner fuel nonce
      = proofOfWorkLoop 11 2 r g b owner fuel nonce := by
  have hin : ∀ nonce : Int, powInput 1 12 r g b owner nonce = powInput 11 2 r g b owner nonce :=
    fun nonce => by
      have h : dec 1 ++ dec 12 = dec 11 ++ dec 2 := by decide
      simp only [powInput, h]
  induction fuel with
  | zero => intro nonce; rfl
  | succ fuel ih =>
    intro nonce
    simp only [proofOfWorkLoop, hin, ih]

/-- The array written by `SHA256` has 32 bytes. -/
theorem SHA256_length (msg : List Nat) : (SHA256 msg).length = 32 := by
  simp [SHA256, wordBytes]

/-- The texts hashed by `proofOfWork` for the cells (1,12) and (11,2) are the same. -/
theorem powInput_collide (r g b : Int) (owner : String) (nonce : Int) :
    powInput 1 12 r g b owner nonce = powInput 11 2 r g b owner nonce := by
  have h : dec 1 ++ dec 12 = dec 11 ++ dec 2 := by decide
  simp only [powInput, h]

/-- The texts signed by `minePixel` for the cells (1,12) and (11,2) are the same. -/
theorem dataToSign_collide (r g b : Int) (owner : String) (nonce : Int) :
    dataToSign 1 12 r g b owner nonce = dataToSign 11 2 r g b owner nonce := by
  have h : dec 1 ++ dec 12 = dec 11 ++ dec 2 := by decide
  simp only [dataToSign, String.append_assoc]
  rw [← String.append_assoc (dec 1), h, String.append_assoc]

/-- Mining (1,12) and then (11,2) with the same colour and owner registers two pixels with
the same nonce and the same signature. -/
theorem mine_collide (bc bc1 : Blockchain) (fuel : Nat) (tPixel tBlock tPixel1 tBlock1 : Int)
    (r g b : Int) (owner : String)
    (hmine : bc.minePixel fuel tPixel tBlock 1 12 r g b owner = some (true, bc1))
    (hfresh : bc.isPixelMined 11 2 = false) :
    ∃ (bc2 : Blockchain) (p1 p2 : Pixel) (k : Int),
      bc1.minePixel fuel tPixel1 tBlock1 11 2 r g b owner = some (true, bc2) ∧
      bc2.pixels.find (1, 12) = some p1 ∧ bc2.pixels.find (11, 2) = some p2 ∧
      proofOfWork fuel 1 12 r g b owner = some k ∧ proofOfWork fuel 11 2 r g b owner = some k ∧
      p1.nonce = k ∧ p2.nonce = k ∧ p1.signature = p2.signature ∧
      accepted (hexDigest (powInput 11 2 r g b owner k)) = true := by
  rcases minePixel_cases bc bc1 fuel tPixel tBlock 1 12 r g b owner true hmine with
    ⟨hok, _, _⟩ | ⟨_, _, nonce, back, hpow, _, hbc⟩
  · cases hok
  · have hpow2 : proofOfWork fuel 11 2 r g b owner = some nonce := by
      rw [← hpow]
      exact (proofOfWorkLoop_collide r g b owner fuel 0).symm
    have hne : ((11 : Int), (2 : Int)) ≠ ((1 : Int), (12 : Int)) := by decide
    have hne2 : ((1 : Int), (12 : Int)) ≠ ((11 : Int), (2 : Int)) := by decide
    have hfresh1 : bc1.isPixelMined 11 2 = false := by
      rw [hbc]
      simpa [Blockchain.isPixelMined, Registry.find_assign_ne _ _ _ _ hne] using hfresh
    have hback1 : bc1.chain.getLast? = some (Block.new tBlock (wrapInt bc.chain.length)
        [Pixel.new tPixel 1 12 r g b owner (dataToSign 1 12 r g b owner nonce) nonce]
        back.hash) := by
      rw [hbc]
      simp
    refine ⟨_, Pixel.new tPixel 1 12 r g b owner (dataToSign 1 12 r g b owner nonce) nonce,
      Pixel.new tPixel1 11 2 r g b owner (dataToSign 11 2 r g b owner nonce) nonce, nonce,
      minePixel_of_fresh bc1 fuel tPixel1 tBlock1 11 2 r g b owner nonce _ hfresh1 hpow2 hback1,
      ?_, ?_, hpow, hpow2, rfl, rfl, dataToSign_collide r g b owner nonce, ?_⟩
    · simp only
      rw [Registry.find_assign_ne _ _ _ _ hne2, hbc]
      exact Registry.find_assign_self _ _ _
    · exact Registry.find_assign_self _ _ _
    · exact (proofOfWork_sound 11 2 r g b owner fuel nonce hpow2).1

/-- The sample ledger `ledger2` is the result of mining (1,12) on `ledger0`. -/
theorem ledger2_mine :
    ledger0.minePixel 6 1739836801 1739836801 1 12 2 3 3 "User1" = some (true, ledger2) := by
  decide

/-! ## The claims -/

/-- C1 (genesis invariant).  Whenever `sodium_init()` does not fail, the constructor
succeeds; the chain of the new ledger is a single block with index 0 and `prev_hash` equal
to the sentinel `"0"`, whose payload is a single pixel at (1,1) with colour (0,0,0), owner
`"Genesis"`, empty signature and nonce 0; the registry has a single entry, at key (1,1),
holding that same pixel. -/
theorem C1_genesis_invariant (sodiumInit tPixel tBlock : Int) (h : 0 ≤ sodiumInit) :
    ∃ bc blk g, Blockchain.new sodiumInit tPixel tBlock = .ok bc ∧
      bc.chain = [blk] ∧ blk.index = 0 ∧ blk.prev_hash = "0" ∧ blk.pixels = [g] ∧
      g.x = 1 ∧ g.y = 1 ∧ g.r = 0 ∧ g.g = 0 ∧ g.b = 0 ∧
      g.owner = "Genesis" ∧ g.signature = "" ∧ g.nonce = 0 ∧
      bc.pixels = [((1, 1), g)] :=
  ⟨_, _, _, new_eq sodiumInit tPixel tBlock h, rfl, rfl, rfl, rfl, rfl, rfl, rfl, rfl, rfl, rfl,
    rfl, rfl, rfl⟩

/-- C1 at `sodium_init() = 0` and clock readings 1739836800 and 1739836801. -/
theorem C1_genesis_invariant_witness :
    ∃ bc blk g, Blockchain.new 0 1739836800 1739836801 = .ok bc ∧
      bc.chain = [blk] ∧ blk.index = 0 ∧ blk.prev_hash = "0" ∧ blk.pixels = [g] ∧
      g.x = 1 ∧ g.y = 1 ∧ g.r = 0 ∧ g.g = 0 ∧ g.b = 0 ∧
      g.owner = "Genesis" ∧ g.signature = "" ∧ g.nonce = 0 ∧
      bc.pixels = [((1, 1), g)] :=
  C1_genesis_invariant 0 1739836800 1739836801 (by decide)

/-- C2 (one claim per cell).  In every reachable ledger state the coordinate pairs of the
pixels sealed in the chain, all blocks together and the genesis block included, are pairwise
distinct. -/
theorem C2_one_claim_per_cell (bc : Blockchain) (h : Reachable bc) :
    (bc.sealed.map Pixel.coord).Nodup :=
  (reachable_registry bc h).1

/-- C2 at the sample ledger with two blocks. -/
theorem C2_one_claim_per_cell_witness :
    Reachable ledger1 ∧ ledger1.sealed.length = 2 ∧ (ledger1.sealed.map Pixel.coord).Nodup :=
  ⟨ledger1_reachable, by decide, C2_one_claim_per_cell ledger1 ledger1_reachable⟩

/-- C4 (the only cause of failure).  For every state with a non-empty chain and every call
whose proof-of-work search terminates within the fuel, `minePixel` returns, and it returns
false if and only if `isPixelMined(x, y)` holds in the state before the call, whatever the
coordinates, the colour channels and the owner. -/
theorem C4_fails_iff_mined (bc : Blockchain) (fuel : Nat) (tPixel tBlock x y r g b : Int)
    (owner : String) (nonce : Int) (hchain : bc.chain ≠ [])
    (hpow : proofOfWork fuel x y r g b owner = some nonce) :
    ∃ ok bc1, bc.minePixel fuel tPixel tBlock x y r g b owner = some (ok, bc1) ∧
      (ok = false ↔ bc.isPixelMined x y = true) := by
  cases hm : bc.isPixelMined x y
  · obtain ⟨bc1, hmine, _⟩ :=
      minePixel_success bc fuel tPixel tBlock x y r g b owner nonce hm hchain hpow
    exact ⟨true, bc1, hmine, by simp⟩
  · exact ⟨false, bc, minePixel_of_mined bc fuel tPixel tBlock x y r g b owner hm, by simp⟩

/-- C4 at the fresh ledger and a call on the cell (0,7), at Manhattan distance 7 from the
only mined cell, with colour channels 9. -/
theorem C4_fails_iff_mined_witness :
    manhattanDistance 0 7 1 1 = 7 ∧
    ∃ ok bc1, ledger0.minePixel 3 1739836801 1739836801 0 7 9 9 9 "Alice" = some (ok, bc1) ∧
      (ok = false ↔ ledger0.isPixelMined 0 7 = true) :=
  ⟨by decide, C4_fails_iff_mined ledger0 3 1739836801 1739836801 0 7 9 9 9 "Alice" 2
    (by decide) (by decide)⟩

/-- C5 (no side effect on failure, atomicity).  When (x, y) is already mined, `minePixel`
returns false and the state after the call, chain and registry, equals the state before.
Every `minePixel` call that returns either returns false with the state unchanged, or returns
true having appended exactly one block to the chain and one entry, under the key (x, y), to
the registry, the entry being the pixel sealed in the new block. -/
theorem C5_failure_has_no_effect :
    (∀ (bc : Blockchain) (fuel : Nat) (tPixel tBlock x y r g b : Int) (owner : String),
        bc.isPixelMined x y = true →
        bc.minePixel fuel tPixel tBlock x y r g b owner = some (false, bc)) ∧
    (∀ (bc bc1 : Blockchain) (fuel : Nat) (tPixel tBlock x y r g b : Int) (owner : String)
        (ok : Bool), bc.minePixel fuel tPixel tBlock x y r g b owner = some (ok, bc1) →
        (ok = false ∧ bc1 = bc) ∨
        (ok = true ∧ ∃ (p : Pixel) (blk : Block), blk.pixels = [p] ∧
          bc1.chain = bc.chain ++ [blk] ∧ bc1.pixels = bc.pixels ++ [((x, y), p)])) := by
  refine ⟨fun bc fuel tPixel tBlock x y r g b owner hm =>
    minePixel_of_mined bc fuel tPixel tBlock x y r g b owner hm, ?_⟩
  intro bc bc1 fuel tPixel tBlock x y r g b owner ok hmine
  rcases minePixel_cases bc bc1 fuel tPixel tBlock x y r g b owner ok hmine with
    ⟨hok, hbc, _⟩ | ⟨hok, hfresh, nonce, back, _, _, hbc⟩
  · exact Or.inl ⟨hok, hbc⟩
  · subst hbc
    exact Or.inr ⟨hok, Pixel.new tPixel x y r g b owner (dataToSign x y r g b owner nonce) nonce,
      Block.new tBlock (wrapInt bc.chain.length)
        [Pixel.new tPixel x y r g b owner (dataToSign x y r g b owner nonce) nonce] back.hash,
      rfl, rfl,
      Registry.assign_of_find_none _ _ _ (by simpa [Blockchain.isPixelMined] using hfresh)⟩

/-- C5 at the sample ledger: mining the cell (0,7) again. -/
theorem C5_failure_has_no_effect_witness :
    ledger1.minePixel 1000 1739836900 1739836900 0 7 1 2 3 "Bob" = some (false, ledger1) :=
  C5_failure_has_no_effect.1 ledger1 1000 1739836900 1739836900 0 7 1 2 3 "Bob" (by decide)

/-- C6 (the chain verifies).  In every reachable ledger state, for every position `i > 0`
of the chain, the block at `i` stores as `prev_hash` the hash stored in the block at `i - 1`,
and its stored hash equals the hash recomputed by `computeHash` from its own index,
`prev_hash` and timestamp. -/
theorem C6_chain_verifies (bc : Blockchain) (h : Reachable bc) (i : Nat) (blk prev : Block)
    (h0 : 0 < i) (hblk : bc.chain[i]? = some blk) (hprev : bc.chain[i - 1]? = some prev) :
    blk.prev_hash = prev.hash ∧ blk.hash = blk.computeHash :=
  reachable_link bc h i blk prev h0 hblk hprev

/-- C6 at the sample ledger, block 1. -/
theorem C6_chain_verifies_witness :
    Reachable ledger1 ∧ ledger1.chain[1]? = some aliceBlock ∧
      ledger1.chain[1 - 1]? = some originBlock ∧
      aliceBlock.prev_hash = originBlock.hash ∧ aliceBlock.hash = aliceBlock.computeHash :=
  ⟨ledger1_reachable, rfl, rfl,
    C6_chain_verifies ledger1 ledger1_reachable 1 aliceBlock originBlock (by decide) rfl rfl⟩

/-- C7 as stated fails: in the reachable sample ledger, whose chain passes `verify`,
replacing the payload of block 1 by a pixel with another owner and another colour gives a
different block and leaves `verify` true. -/
theorem C7_payload_change_undetected :
    Reachable ledger1 ∧ verify ledger1.chain = true ∧ ledger1.chain[1]? = some aliceBlock ∧
      ({ aliceBlock with pixels := [{ alicePixel with owner := "Mallory", r := 0 }] } : Block)
        ≠ aliceBlock ∧
      verify (ledger1.chain.set 1
        { aliceBlock with pixels := [{ alicePixel with owner := "Mallory", r := 0 }] }) = true :=
  ⟨ledger1_reachable, by decide, rfl, by decide, by decide⟩

/-- C7 (tamper detection, amended).  In every reachable ledger state and for every
non-genesis block of the chain: storing a different `prev_hash`, or a different `hash`, in
that block makes `verify` return false; storing a different `index`, or a different
`timestamp`, makes `verify` return false whenever the digest recomputed from the changed
fields differs from the digest of the original fields; replacing the pixels payload by any
other payload leaves `verify` true. -/
theorem C7_tamper_detection (bc : Blockchain) (h : Reachable bc) (i : Nat) (blk : Block)
    (h0 : 0 < i) (hblk : bc.chain[i]? = some blk) :
    (∀ v : String, v ≠ blk.prev_hash →
        verify (bc.chain.set i { blk with prev_hash := v }) = false) ∧
    (∀ v : String, v ≠ blk.hash →
        verify (bc.chain.set i { blk with hash := v }) = false) ∧
    (∀ v : Int, v ≠ blk.index →
        hexDigest (dec v ++ blk.prev_hash ++ dec blk.timestamp)
          ≠ hexDigest (dec blk.index ++ blk.prev_hash ++ dec blk.timestamp) →
        verify (bc.chain.set i { blk with index := v }) = false) ∧
    (∀ v : Int, v ≠ blk.timestamp →
        hexDigest (dec blk.index ++ blk.prev_hash ++ dec v)
          ≠ hexDigest (dec blk.index ++ blk.prev_hash ++ dec blk.timestamp) →
        verify (bc.chain.set i { blk with timestamp := v }) = false) ∧
    (∀ ps : List Pixel, verify (bc.chain.set i { blk with pixels := ps }) = true) := by
  have hi : i < bc.chain.length := by
    by_contra hge
    rw [List.getElem?_eq_none (by omega)] at hblk
    cases hblk
  obtain ⟨prev, hprev⟩ : ∃ prev, bc.chain[i - 1]? = some prev :=
    ⟨bc.chain[i - 1], List.getElem?_eq_getElem (by omega)⟩
  obtain ⟨hlink, hhash⟩ := reachable_link bc h i blk prev h0 hblk hprev
  have hset : ∀ blk1 : Block, (bc.chain.set i blk1)[i]? = some blk1 := fun blk1 => by
    rw [List.getElem?_set_self hi]
  have hset1 : ∀ blk1 : Block, (bc.chain.set i blk1)[i - 1]? = some prev := fun blk1 => by
    rw [List.getElem?_set_ne (by omega)]
    exact hprev
  have hfalse : ∀ blk1 : Block, ¬ (blk1.computeHash = blk1.hash ∧ blk1.prev_hash = prev.hash) →
      verify (bc.chain.set i blk1) = false := fun blk1 hbad => by
    rw [Bool.eq_false_iff]
    intro hv
    exact hbad ((verify_iff _).mp hv i blk1 prev h0 (hset blk1) (hset1 blk1))
  refine ⟨?_, ?_, ?_, ?_, ?_⟩
  · intro v hv
    exact hfalse _ fun hbad => hv (hbad.2.trans hlink.symm)
  · intro v hv
    exact hfalse _ fun hbad => hv (hbad.1.symm.trans hhash.symm)
  · intro v _ hd
    exact hfalse _ fun hbad => hd (hbad.1.trans hhash)
  · intro v _ hd
    exact hfalse _ fun hbad => hd (hbad.1.trans hhash)
  · intro ps
    rw [verify_iff]
    intro j blk1 prev1 hj hblk1 hprev1
    have hv := (verify_iff _).mp (reachable_verify bc h)
    by_cases hji : j = i
    · subst hji
      rw [hset] at hblk1
      rw [hset1] at hprev1
      simp only [Option.some.injEq] at hblk1 hprev1
      subst hblk1 hprev1
      exact ⟨hhash.symm, hlink⟩
    · rw [List.getElem?_set_ne (fun hij => hji hij.symm)] at hblk1
      by_cases hji1 : j - 1 = i
      · rw [← hji1, List.getElem?_set_self (by omega)] at hprev1
        simp only [Option.some.injEq] at hprev1
        subst hprev1
        exact hv j blk1 blk hj hblk1 (by rw [hji1]; exact hblk)
      · rw [List.getElem?_set_ne (fun hij => hji1 hij.symm)] at hprev1
        exact hv j blk1 prev1 hj hblk1 hprev1

/-- C7 (amended) at the sample ledger, block 1. -/
theorem C7_tamper_detection_witness :
    verify (ledger1.chain.set 1 { aliceBlock with prev_hash := "0" }) = false ∧
    verify (ledger1.chain.set 1 { aliceBlock with hash := "00" }) = false ∧
    verify (ledger1.chain.set 1 { aliceBlock with index := 7 }) = false ∧
    verify (ledger1.chain.set 1 { aliceBlock with timestamp := 0 }) = false ∧
    verify (ledger1.chain.set 1 { aliceBlock with pixels := [] }) = true :=
  ⟨(C7_tamper_detection ledger1 ledger1_reachable 1 aliceBlock (by decide) rfl).1 "0"
      (by decide),
    (C7_tamper_detection ledger1 ledger1_reachable 1 aliceBlock (by decide) rfl).2.1 "00"
      (by decide),
    (C7_tamper_detection ledger1 ledger1_reachable 1 aliceBlock (by decide) rfl).2.2.1 7
      (by decide) (by decide),
    (C7_tamper_detection ledger1 ledger1_reachable 1 aliceBlock (by decide) rfl).2.2.2.1 0
      (by decide) (by decide),
    (C7_tamper_detection ledger1 ledger1_reachable 1 aliceBlock (by decide) rfl).2.2.2.2 []⟩

/-- C8 (the block hash ignores the payload).  Two blocks with equal index, equal `prev_hash`
and equal timestamp have the same `computeHash`, whatever their pixel lists; hence in a block
whose stored hash equals the recomputed one, replacing the payload by any other list of pixels
(for instance with a changed colour or owner) keeps the recomputed hash equal to the stored
hash. -/
theorem C8_hash_ignores_payload :
    (∀ b1 b2 : Block, b1.index = b2.index → b1.prev_hash = b2.prev_hash →
        b1.timestamp = b2.timestamp → b1.computeHash = b2.computeHash) ∧
    (∀ (blk : Block) (ps : List Pixel), blk.computeHash = blk.hash →
        ({ blk with pixels := ps } : Block).computeHash
          = ({ blk with pixels := ps } : Block).hash) := by
  refine ⟨?_, fun blk ps hblk => hblk⟩
  intro b1 b2 hi hp ht
  simp only [Block.computeHash, hi, hp, ht]

/-- C8 at block 1 of the sample ledger, with the owner and the red channel of its pixel
replaced. -/
theorem C8_hash_ignores_payload_witness :
    aliceBlock.computeHash
      = ({ aliceBlock with pixels := [{ alicePixel with owner := "Mallory", r := 0 }] }
          : Block).computeHash ∧
    ({ aliceBlock with pixels := [{ alicePixel with owner := "Mallory", r := 0 }] }
        : Block).computeHash
      = ({ aliceBlock with pixels := [{ alicePixel with owner := "Mallory", r := 0 }] }
          : Block).hash :=
  ⟨C8_hash_ignores_payload.1 aliceBlock
      { aliceBlock with pixels := [{ alicePixel with owner := "Mallory", r := 0 }] } rfl rfl rfl,
    C8_hash_ignores_payload.2 aliceBlock [{ alicePixel with owner := "Mallory", r := 0 }]
      (by decide)⟩

/-- C10 (the search returns the least accepting nonce).  If for some nonce `j` in the
non-negative range of `int` the hex digest of the text `x y r g b owner j` begins with
`difficulty` characters `'0'`, then `proofOfWork` terminates: there is a `k` with
`0 <= k <= j` that `proofOfWork` returns for every fuel above `k`; the digest for `k` begins
with `difficulty` characters `'0'`, and for no `i` with `0 <= i < k` does the digest for `i`.
The value returned is `k` itself. -/
theorem C10_proofOfWork_least (x y r g b : Int) (owner : String) (j : Int) (h0 : 0 ≤ j)
    (h1 : j < 2147483648)
    (hj : List.replicate difficulty '0' <+: (hexDigest (powInput x y r g b owner j)).data) :
    ∃ k : Int, 0 ≤ k ∧ k ≤ j ∧
      (∀ fuel : Nat, k < fuel → proofOfWork fuel x y r g b owner = some k) ∧
      List.replicate difficulty '0' <+: (hexDigest (powInput x y r g b owner k)).data ∧
      ∀ i : Int, 0 ≤ i → i < k →
        ¬ List.replicate difficulty '0' <+: (hexDigest (powInput x y r g b owner i)).data := by
  obtain ⟨k, hk0, hkj, hfuel, hacc, hmin⟩ :=
    proofOfWork_least x y r g b owner j h0 h1 ((accepted_iff _).mpr hj)
  refine ⟨k, hk0, hkj, hfuel, (accepted_iff _).mp hacc, ?_⟩
  intro i hi0 hik hpre
  have := hmin i hi0 hik
  rw [(accepted_iff _).mpr hpre] at this
  cases this

/-- C10 at the first call of `main`, whose digest is accepted at nonce 134. -/
theorem C10_proofOfWork_least_witness :
    ∃ k : Int, 0 ≤ k ∧ k ≤ 134 ∧
      (∀ fuel : Nat, k < fuel → proofOfWork fuel 1 2 2 3 1 "User1" = some k) ∧
      List.replicate difficulty '0' <+: (hexDigest (powInput 1 2 2 3 1 "User1" k)).data ∧
      ∀ i : Int, 0 ≤ i → i < k →
        ¬ List.replicate difficulty '0' <+: (hexDigest (powInput 1 2 2 3 1 "User1" i)).data :=
  C10_proofOfWork_least 1 2 2 3 1 "User1" 134 (by decide) (by decide)
    ((accepted_iff _).mp (by decide))

/-- C11 as stated fails: the genesis pixel is sealed in the reachable ledger `ledger0`, and
the digest of its own fields followed by its stored nonce 0, the digest of the text
`11000Genesis0`, begins with `24`, not with `difficulty` characters `'0'`. -/
theorem C11_genesis_pixel_has_no_proof :
    Reachable ledger0 ∧ originPixel ∈ ledger0.sealed ∧
      powInput originPixel.x originPixel.y originPixel.r originPixel.g originPixel.b
        originPixel.owner originPixel.nonce = "11000Genesis0" ∧
      hexDigest "11000Genesis0"
        = "24a6e4429be58e47da41f5a0af96eda01fa1e487ac5565db5948b3ef1defe89d" ∧
      ¬ List.replicate difficulty '0' <+:
        (hexDigest (powInput originPixel.x originPixel.y originPixel.r originPixel.g
          originPixel.b originPixel.owner originPixel.nonce)).data :=
  ⟨ledger0_reachable, by decide, by decide, by decide,
    fun h => absurd ((accepted_iff _).mpr h) (by decide)⟩

/-- C11 (proof-of-work validity, amended).  In every reachable ledger state, every pixel
sealed in a block other than the genesis block satisfies the proof-of-work predicate for its
own fields: the digest of the text `x y r g b owner` followed by the pixel's stored nonce
begins with `difficulty` characters `'0'`, and no smaller non-negative nonce does for the same
fields. -/
theorem C11_sealed_pow_valid (bc : Blockchain) (h : Reachable bc) (i : Nat) (blk : Block)
    (p : Pixel) (h0 : 0 < i) (hblk : bc.chain[i]? = some blk) (hp : p ∈ blk.pixels) :
    List.replicate difficulty '0' <+:
        (hexDigest (powInput p.x p.y p.r p.g p.b p.owner p.nonce)).data ∧
      ∀ j : Int, 0 ≤ j → j < p.nonce →
        ¬ List.replicate difficulty '0' <+:
          (hexDigest (powInput p.x p.y p.r p.g p.b p.owner j)).data := by
  obtain ⟨hacc, hmin⟩ := reachable_sealed_pow bc h i blk hblk h0 p hp
  refine ⟨(accepted_iff _).mp hacc, ?_⟩
  intro j hj0 hjk hpre
  have := hmin j hj0 hjk
  rw [(accepted_iff _).mpr hpre] at this
  cases this

/-- C11 (amended) at the sample ledger: the pixel of block 1, with nonce 2. -/
theorem C11_sealed_pow_valid_witness :
    List.replicate difficulty '0' <+:
        (hexDigest (powInput alicePixel.x alicePixel.y alicePixel.r alicePixel.g alicePixel.b
          alicePixel.owner alicePixel.nonce)).data ∧
      ∀ j : Int, 0 ≤ j → j < alicePixel.nonce →
        ¬ List.replicate difficulty '0' <+:
          (hexDigest (powInput alicePixel.x alicePixel.y alicePixel.r alicePixel.g alicePixel.b
            alicePixel.owner j)).data :=
  C11_sealed_pow_valid ledger1 ledger1_reachable 1 aliceBlock alicePixel (by decide) rfl
    (by decide)

/-- C12 (what a successful call builds).  If `minePixel(x, y, r, g, b, owner)` returns true
from a state whose chain has length `L` and last block `back`, the new chain is the old one
followed by one block, so it has length `L + 1`; that last block has as index `L` converted
to `int`, which is `L` itself whenever `L` is below `2^31`, it has `prev_hash` equal to the
hash of `back` and a payload of exactly one pixel, which has the given `x`, `y`, `r`, `g`, `b`
and `owner` and the nonce returned by `proofOfWork` for them; afterwards `isPixelMined(x, y)`
is true and the registry entry at (x, y) is that same pixel. -/
theorem C12_successful_mine (bc bc1 : Blockchain) (fuel : Nat) (tPixel tBlock x y r g b : Int)
    (owner : String) (back : Block)
    (hmine : bc.minePixel fuel tPixel tBlock x y r g b owner = some (true, bc1))
    (hback : bc.chain.getLast? = some back) :
    ∃ (blk : Block) (p : Pixel),
      bc1.chain = bc.chain ++ [blk] ∧ bc1.chain.length = bc.chain.length + 1 ∧
      bc1.chain.getLast? = some blk ∧ blk.index = wrapInt bc.chain.length ∧
      (bc.chain.length < 2147483648 → blk.index = bc.chain.length) ∧
      blk.prev_hash = back.hash ∧ blk.pixels = [p] ∧
      p.x = x ∧ p.y = y ∧ p.r = r ∧ p.g = g ∧ p.b = b ∧ p.owner = owner ∧
      proofOfWork fuel x y r g b owner = some p.nonce ∧
      bc1.isPixelMined x y = true ∧ bc1.pixels.find (x, y) = some p := by
  rcases minePixel_cases bc bc1 fuel tPixel tBlock x y r g b owner true hmine with
    ⟨hok, _, _⟩ | ⟨_, _, nonce, back1, hpow, hback1, hbc⟩
  · cases hok
  · rw [hback] at hback1
    simp only [Option.some.injEq] at hback1
    subst hback1 hbc
    refine ⟨_, _, rfl, by simp, by simp, rfl, fun hlen => wrapInt_size _ hlen, rfl, rfl, rfl,
      rfl, rfl, rfl, rfl, rfl, hpow, ?_, ?_⟩
    · simp only [Blockchain.isPixelMined, Registry.find_assign_self, Option.isSome_some]
    · exact Registry.find_assign_self _ _ _

/-- C12 at the fresh sample ledger and the call on the cell (0,7): the new block has
index 1. -/
theorem C12_successful_mine_witness :
    ∃ (blk : Block) (p : Pixel),
      ledger1.chain = ledger0.chain ++ [blk] ∧ ledger1.chain.length = ledger0.chain.length + 1 ∧
      ledger1.chain.getLast? = some blk ∧ blk.index = 1 ∧
      blk.prev_hash = originBlock.hash ∧ blk.pixels = [p] ∧
      p.x = 0 ∧ p.y = 7 ∧ p.r = 9 ∧ p.g = 9 ∧ p.b = 9 ∧ p.owner = "Alice" ∧
      proofOfWork 3 0 7 9 9 9 "Alice" = some p.nonce ∧
      ledger1.isPixelMined 0 7 = true ∧ ledger1.pixels.find (0, 7) = some p := by
  obtain ⟨blk, p, h1, h2, h3, _, h5, h6⟩ :=
    C12_successful_mine ledger0 ledger1 3 1739836801 1739836801 0 7 9 9 9 "Alice" originBlock
      ledger1_mine rfl
  exact ⟨blk, p, h1, h2, h3, h5 (by decide), h6⟩

/-- C13 (the placeholder signature).  If `minePixel(x, y, r, g, b, owner)` returns true, the
pixel it registers at (x, y) and seals in the new last block carries as signature the text
`owner`, `x`, `y`, `r`, `g`, `b`, `nonce` concatenated in that order without separators, the
numbers in decimal, where `nonce` is the value returned by `proofOfWork` for these
parameters. -/
theorem C13_signature (bc bc1 : Blockchain) (fuel : Nat) (tPixel tBlock x y r g b : Int)
    (owner : String)
    (hmine : bc.minePixel fuel tPixel tBlock x y r g b owner = some (true, bc1)) :
    ∃ (nonce : Int) (blk : Block) (p : Pixel),
      proofOfWork fuel x y r g b owner = some nonce ∧
      bc1.chain.getLast? = some blk ∧ blk.pixels = [p] ∧ bc1.pixels.find (x, y) = some p ∧
      p.signature = owner ++ dec x ++ dec y ++ dec r ++ dec g ++ dec b ++ dec nonce := by
  rcases minePixel_cases bc bc1 fuel tPixel tBlock x y r g b owner true hmine with
    ⟨hok, _, _⟩ | ⟨_, _, nonce, back, hpow, _, hbc⟩
  · cases hok
  · subst hbc
    exact ⟨nonce,
      Block.new tBlock (wrapInt bc.chain.length)
        [Pixel.new tPixel x y r g b owner (dataToSign x y r g b owner nonce) nonce] back.hash,
      Pixel.new tPixel x y r g b owner (dataToSign x y r g b owner nonce) nonce,
      hpow, by simp, rfl, Registry.find_assign_self _ _ _, rfl⟩

/-- C13 at the fresh sample ledger and the call on the cell (0,7): the signature is
`Alice079992`. -/
theorem C13_signature_witness :
    alicePixel.signature = "Alice079992" ∧
    ∃ (nonce : Int) (blk : Block) (p : Pixel),
      proofOfWork 3 0 7 9 9 9 "Alice" = some nonce ∧
      ledger1.chain.getLast? = some blk ∧ blk.pixels = [p] ∧
      ledger1.pixels.find (0, 7) = some p ∧
      p.signature = "Alice" ++ dec 0 ++ dec 7 ++ dec 9 ++ dec 9 ++ dec 9 ++ dec nonce :=
  ⟨rfl, C13_signature ledger0 ledger1 3 1739836801 1739836801 0 7 9 9 9 "Alice" ledger1_mine⟩

/-- C14 (append-only chain, immutable claims).  For every state and every `minePixel` call
that returns, with either result: the chain before the call is an initial segment of the
chain after it, so every existing block, the genesis block included, keeps its position and
all its fields; for every coordinate pair other than the one being mined the registry entry
after the call equals the entry before; and an entry present before the call, at any key, is
still there unchanged after it. -/
theorem C14_append_only (bc bc1 : Blockchain) (fuel : Nat) (tPixel tBlock x y r g b : Int)
    (owner : String) (ok : Bool)
    (hmine : bc.minePixel fuel tPixel tBlock x y r g b owner = some (ok, bc1)) :
    bc.chain <+: bc1.chain ∧
      (∀ (i : Nat) (blk : Block), bc.chain[i]? = some blk → bc1.chain[i]? = some blk) ∧
      (∀ k : Int × Int, k ≠ (x, y) → bc1.pixels.find k = bc.pixels.find k) ∧
      (∀ (k : Int × Int) (p : Pixel), bc.pixels.find k = some p →
        bc1.pixels.find k = some p) := by
  rcases minePixel_cases bc bc1 fuel tPixel tBlock x y r g b owner ok hmine with
    ⟨_, hbc, _⟩ | ⟨_, hfresh, nonce, back, _, _, hbc⟩
  · subst hbc
    exact ⟨List.prefix_rfl, fun _ _ h => h, fun _ _ => rfl, fun _ _ h => h⟩
  · subst hbc
    have hnone : bc.pixels.find (x, y) = none := by
      simpa [Blockchain.isPixelMined] using hfresh
    refine ⟨List.prefix_append _ _, ?_, ?_, ?_⟩
    · intro i blk hblk
      have hi : i < bc.chain.length := by
        by_contra hge
        rw [List.getElem?_eq_none (by omega)] at hblk
        cases hblk
      simp only
      rw [List.getElem?_append_left hi]
      exact hblk
    · intro k hk
      exact Registry.find_assign_ne _ _ _ _ hk
    · intro k p hkp
      have hk : k ≠ (x, y) := by
        intro h
        rw [h, hnone] at hkp
        cases hkp
      simp only
      rw [Registry.find_assign_ne _ _ _ _ hk]
      exact hkp

/-- C14 at the fresh sample ledger and the call on the cell (0,7). -/
theorem C14_append_only_witness :
    ledger0.chain <+: ledger1.chain ∧
      (∀ (i : Nat) (blk : Block), ledger0.chain[i]? = some blk →
        ledger1.chain[i]? = some blk) ∧
      (∀ k : Int × Int, k ≠ (0, 7) → ledger1.pixels.find k = ledger0.pixels.find k) ∧
      (∀ (k : Int × Int) (p : Pixel), ledger0.pixels.find k = some p →
        ledger1.pixels.find k = some p) :=
  C14_append_only ledger0 ledger1 3 1739836801 1739836801 0 7 9 9 9 "Alice" true ledger1_mine

/-- C15 (index equals position).  In every reachable ledger state the block at position `i`
of the chain stores as index the value `i` converted to `int`; for every position below
`2^31`, the range of `int`, the stored index is `i` itself. -/
theorem C15_index_is_position (bc : Blockchain) (h : Reachable bc) (i : Nat) (blk : Block)
    (hblk : bc.chain[i]? = some blk) :
    blk.index = wrapInt i ∧ (i < 2147483648 → blk.index = i) :=
  ⟨reachable_index bc h i blk hblk,
    fun hi => (reachable_index bc h i blk hblk).trans (wrapInt_size i hi)⟩

/-- C15 at the sample ledger: block 0 has index 0 and block 1 has index 1. -/
theorem C15_index_is_position_witness :
    originBlock.index = (0 : Nat) ∧ aliceBlock.index = (1 : Nat) :=
  ⟨(C15_index_is_position ledger1 ledger1_reachable 0 originBlock rfl).2 (by decide),
    (C15_index_is_position ledger1 ledger1_reachable 1 aliceBlock rfl).2 (by decide)⟩

/-- C16 (the digest): the hex loop as written does not build the digest the claim
describes.  Whatever `sprintf` returns, the loop appends one character for each of the 32
digest bytes, so the string it builds has 32 characters, not 64.  On the empty message, with
`sprintf` returning 2, the number of characters that `%02x` denotes, the string is 32 copies
of the character with code 2, which is not a hexadecimal digit.  The repaired loop gives the
published digest of the empty message on the same input. -/
theorem C16_hex_loop_as_written :
    (∀ (sprintfResult : Nat → Int) (s : String),
        (hexHashAsWritten sprintfResult (SHA256 (strBytes s))).length = 32) ∧
    hexHashAsWritten (fun _ => 2) (SHA256 (strBytes ""))
      = String.mk (List.replicate 32 (Char.ofNat 2)) ∧
    (hexHashAsWritten (fun _ => 2) (SHA256 (strBytes ""))).length ≠ 64 ∧
    Char.ofNat 2 ∉ "0123456789abcdef".data ∧
    hexDigest "" = "e3b0c44298fc1c149afbf4c8996fb92427ae41e4649b934ca495991b7852b855" := by
  refine ⟨?_, by decide, by decide, by decide, by decide⟩
  intro sprintfResult s
  simp [hexHashAsWritten, String.length, SHA256_length]

/-- C17 (the registry replays the chain).  In every reachable ledger state, for every
coordinate pair (x, y) and pixel `p`, the registry maps (x, y) to `p` if and only if `p` has
coordinates (x, y) and is sealed in some block of the chain; and `isPixelMined(x, y)` is true
if and only if some block of the chain contains a pixel at (x, y). -/
theorem C17_registry_replays_chain (bc : Blockchain) (h : Reachable bc) :
    (∀ (x y : Int) (p : Pixel), bc.pixels.find (x, y) = some p ↔
        (p.x = x ∧ p.y = y) ∧ ∃ blk ∈ bc.chain, p ∈ blk.pixels) ∧
    (∀ x y : Int, bc.isPixelMined x y = true ↔
        ∃ blk ∈ bc.chain, ∃ p ∈ blk.pixels, p.x = x ∧ p.y = y) := by
  have hreg := (reachable_registry bc h).2
  have hreg2 : ∀ (x y : Int) (p : Pixel), bc.pixels.find (x, y) = some p ↔
      (p.x = x ∧ p.y = y) ∧ ∃ blk ∈ bc.chain, p ∈ blk.pixels := by
    intro x y p
    rw [hreg (x, y) p]
    simp only [Blockchain.sealed, List.mem_flatMap, Pixel.coord, Prod.mk.injEq]
    exact and_comm
  refine ⟨hreg2, ?_⟩
  intro x y
  simp only [Blockchain.isPixelMined, Option.isSome_iff_exists, hreg2]
  constructor
  · rintro ⟨p, hxy, blk, hblk, hp⟩
    exact ⟨blk, hblk, p, hp, hxy⟩
  · rintro ⟨blk, hblk, p, hp, hxy⟩
    exact ⟨p, hxy, blk, hblk, hp⟩

/-- C17 at the sample ledger with two blocks. -/
theorem C17_registry_replays_chain_witness :
    (∀ (x y : Int) (p : Pixel), ledger1.pixels.find (x, y) = some p ↔
        (p.x = x ∧ p.y = y) ∧ ∃ blk ∈ ledger1.chain, p ∈ blk.pixels) ∧
    (∀ x y : Int, ledger1.isPixelMined x y = true ↔
        ∃ blk ∈ ledger1.chain, ∃ p ∈ blk.pixels, p.x = x ∧ p.y = y) :=
  C17_registry_replays_chain ledger1 ledger1_reachable

/-- C18 as stated fails: the call `minePixel(0, 7, 9, 9, 9, "Alice")` on the fresh sample
ledger returns true with nonce 2; the text `proofOfWork` hashed to accept nonce 2 is
`07999Alice2`, the signature stored in the mined pixel is `Alice079992`, and the two
differ. -/
theorem C18_pow_text_differs_from_signature :
    ledger0.minePixel 3 1739836801 1739836801 0 7 9 9 9 "Alice" = some (true, ledger1) ∧
      proofOfWork 3 0 7 9 9 9 "Alice" = some 2 ∧
      ledger1.pixels.find (0, 7) = some alicePixel ∧
      powInput 0 7 9 9 9 "Alice" 2 = "07999Alice2" ∧
      alicePixel.signature = "Alice079992" ∧
      powInput 0 7 9 9 9 "Alice" 2 ≠ alicePixel.signature :=
  ⟨ledger1_mine, by decide, by decide, by decide, rfl, by decide⟩

/-- C18 (proof-of-work text and signature text, amended).  If `minePixel(x, y, r, g, b,
owner)` returns true with nonce `k`, the text that `proofOfWork` hashed to accept `k` is
the five numbers `x y r g b` in decimal, then `owner`, then `k`; the signature stored in the
mined pixel is `owner`, then the same five numbers in decimal, then `k`.  Both are built
from the same fields in the same encoding without separators, with `owner` at a different
place, and they are equal exactly when `owner` commutes with the text of the five numbers
under concatenation. -/
theorem C18_pow_text_and_signature (bc bc1 : Blockchain) (fuel : Nat)
    (tPixel tBlock x y r g b : Int) (owner : String)
    (hmine : bc.minePixel fuel tPixel tBlock x y r g b owner = some (true, bc1)) :
    ∃ (k : Int) (p : Pixel),
      proofOfWork fuel x y r g b owner = some k ∧ bc1.pixels.find (x, y) = some p ∧
      accepted (hexDigest (powInput x y r g b owner k)) = true ∧
      powInput x y r g b owner k
        = (dec x ++ dec y ++ dec r ++ dec g ++ dec b) ++ owner ++ dec k ∧
      p.signature = owner ++ (dec x ++ dec y ++ dec r ++ dec g ++ dec b) ++ dec k ∧
      (powInput x y r g b owner k = p.signature ↔
        (dec x ++ dec y ++ dec r ++ dec g ++ dec b) ++ owner
          = owner ++ (dec x ++ dec y ++ dec r ++ dec g ++ dec b)) := by
  rcases minePixel_cases bc bc1 fuel tPixel tBlock x y r g b owner true hmine with
    ⟨hok, _, _⟩ | ⟨_, _, nonce, back, hpow, _, hbc⟩
  · cases hok
  · subst hbc
    refine ⟨nonce, Pixel.new tPixel x y r g b owner (dataToSign x y r g b owner nonce) nonce,
      hpow, Registry.find_assign_self _ _ _,
      (proofOfWork_sound x y r g b owner fuel nonce hpow).1, rfl, ?_,
      powInput_eq_dataToSign_iff x y r g b owner nonce⟩
    simp only [Pixel.new, dataToSign, String.append_assoc]

/-- C18 (amended) at the fresh sample ledger and the call on the cell (0,7). -/
theorem C18_pow_text_and_signature_witness :
    ∃ (k : Int) (p : Pixel),
      proofOfWork 3 0 7 9 9 9 "Alice" = some k ∧ ledger1.pixels.find (0, 7) = some p ∧
      accepted (hexDigest (powInput 0 7 9 9 9 "Alice" k)) = true ∧
      powInput 0 7 9 9 9 "Alice" k
        = (dec 0 ++ dec 7 ++ dec 9 ++ dec 9 ++ dec 9) ++ "Alice" ++ dec k ∧
      p.signature = "Alice" ++ (dec 0 ++ dec 7 ++ dec 9 ++ dec 9 ++ dec 9) ++ dec k ∧
      (powInput 0 7 9 9 9 "Alice" k = p.signature ↔
        (dec 0 ++ dec 7 ++ dec 9 ++ dec 9 ++ dec 9) ++ "Alice"
          = "Alice" ++ (dec 0 ++ dec 7 ++ dec 9 ++ dec 9 ++ dec 9)) :=
  C18_pow_text_and_signature ledger0 ledger1 3 1739836801 1739836801 0 7 9 9 9 "Alice"
    ledger1_mine

/-- C19 (the serialisation is not injective).  The cells (1,12) and (11,2) differ, yet for
every colour, owner and nonce `proofOfWork` hashes the same text for both and `minePixel`
signs the same text for both.  Hence whenever the search for (1,12) returns a nonce, the
search for (11,2) returns that same nonce, which is accepted for (11,2); if some nonce in the
non-negative range of `int` is accepted, both searches return the same least nonce for every
sufficient fuel; and mining (1,12) and then (11,2) registers two pixels with the same nonce
and the same signature.  For colour (2,3,3) and owner `User1` both searches return 5 and both
signature texts are `User11122335`.  For every fuel the two searches have the same outcome. -/
theorem C19_serialisation_not_injective :
    ((1 : Int), (12 : Int)) ≠ ((11 : Int), (2 : Int)) ∧
    (∀ (r g b : Int) (owner : String) (nonce : Int),
      powInput 1 12 r g b owner nonce = powInput 11 2 r g b owner nonce ∧
      dataToSign 1 12 r g b owner nonce = dataToSign 11 2 r g b owner nonce) ∧
    (∀ (r g b : Int) (owner : String) (fuel : Nat) (k : Int),
      proofOfWork fuel 1 12 r g b owner = some k →
      proofOfWork fuel 11 2 r g b owner = some k ∧
        accepted (hexDigest (powInput 11 2 r g b owner k)) = true) ∧
    (∀ (r g b : Int) (owner : String) (j : Int), 0 ≤ j → j < 2147483648 →
      accepted (hexDigest (powInput 1 12 r g b owner j)) = true →
      ∃ k : Int, 0 ≤ k ∧ k ≤ j ∧ ∀ fuel : Nat, k < fuel →
        proofOfWork fuel 1 12 r g b owner = some k ∧
        proofOfWork fuel 11 2 r g b owner = some k) ∧
    (∀ (bc bc1 : Blockchain) (fuel : Nat) (tPixel tBlock tPixel1 tBlock1 r g b : Int)
      (owner : String),
      bc.minePixel fuel tPixel tBlock 1 12 r g b owner = some (true, bc1) →
      bc.isPixelMined 11 2 = false →
      ∃ (bc2 : Blockchain) (p1 p2 : Pixel) (k : Int),
        bc1.minePixel fuel tPixel1 tBlock1 11 2 r g b owner = some (true, bc2) ∧
        bc2.pixels.find (1, 12) = some p1 ∧ bc2.pixels.find (11, 2) = some p2 ∧
        proofOfWork fuel 1 12 r g b owner = some k ∧
        proofOfWork fuel 11 2 r g b owner = some k ∧
        p1.nonce = k ∧ p2.nonce = k ∧ p1.signature = p2.signature ∧
        accepted (hexDigest (powInput 11 2 r g b owner k)) = true) ∧
    proofOfWork 6 1 12 2 3 3 "User1" = some 5 ∧ proofOfWork 6 11 2 2 3 3 "User1" = some 5 ∧
    powInput 1 12 2 3 3 "User1" 5 = "112233User15" ∧
    powInput 11 2 2 3 3 "User1" 5 = "112233User15" ∧
    dataToSign 1 12 2 3 3 "User1" 5 = "User11122335" ∧
    dataToSign 11 2 2 3 3 "User1" 5 = "User11122335" ∧
    (∀ (r g b : Int) (owner : String) (fuel : Nat),
      proofOfWork fuel 1 12 r g b owner = proofOfWork fuel 11 2 r g b owner) := by
  refine ⟨by decide, ?_, ?_, ?_, ?_, by decide, by decide, by decide, by decide, by decide,
    by decide, fun r g b owner fuel => proofOfWorkLoop_collide r g b owner fuel 0⟩
  · intro r g b owner nonce
    exact ⟨powInput_collide r g b owner nonce, dataToSign_collide r g b owner nonce⟩
  · intro r g b owner fuel k hk
    have hk2 : proofOfWork fuel 11 2 r g b owner = some k := by
      rw [← hk]
      exact (proofOfWorkLoop_collide r g b owner fuel 0).symm
    exact ⟨hk2, (proofOfWork_sound 11 2 r g b owner fuel k hk2).1⟩
  · intro r g b owner j hj0 hj1 hacc
    obtain ⟨k, hk0, hkj, hfuel, _, _⟩ := proofOfWork_least 1 12 r g b owner j hj0 hj1 hacc
    refine ⟨k, hk0, hkj, fun fuel hf => ⟨hfuel fuel hf, ?_⟩⟩
    rw [← hfuel fuel hf]
    exact (proofOfWorkLoop_collide r g b owner fuel 0).symm
  · intro bc bc1 fuel tPixel tBlock tPixel1 tBlock1 r g b owner hmine hfresh
    exact mine_collide bc bc1 fuel tPixel tBlock tPixel1 tBlock1 r g b owner hmine hfresh

/-- C19 at the fresh sample ledger, colour (2,3,3) and owner `User1`: both cells are mined
with nonce 5, and at the colour and owner of the first call of `main`, where nonce 144 is
accepted, both searches return the same nonce. -/
theorem C19_serialisation_not_injective_witness :
    (∃ (bc2 : Blockchain) (p1 p2 : Pixel) (k : Int),
      ledger2.minePixel 6 1739836802 1739836802 11 2 2 3 3 "User1" = some (true, bc2) ∧
      bc2.pixels.find (1, 12) = some p1 ∧ bc2.pixels.find (11, 2) = some p2 ∧
      proofOfWork 6 1 12 2 3 3 "User1" = some k ∧
      proofOfWork 6 11 2 2 3 3 "User1" = some k ∧
      p1.nonce = k ∧ p2.nonce = k ∧ p1.signature = p2.signature ∧
      accepted (hexDigest (powInput 11 2 2 3 3 "User1" k)) = true) ∧
    (proofOfWork 6 11 2 2 3 3 "User1" = some 5 ∧
      accepted (hexDigest (powInput 11 2 2 3 3 "User1" 5)) = true) ∧
    ∃ k : Int, 0 ≤ k ∧ k ≤ 144 ∧ ∀ fuel : Nat, k < fuel →
      proofOfWork fuel 1 12 2 3 1 "User1" = some k ∧
      proofOfWork fuel 11 2 2 3 1 "User1" = some k :=
  ⟨C19_serialisation_not_injective.2.2.2.2.1 ledger0 ledger2 6 1739836801 1739836801
      1739836802 1739836802 2 3 3 "User1" ledger2_mine (by decide),
    C19_serialisation_not_injective.2.2.1 2 3 3 "User1" 6 5 (by decide),
    C19_serialisation_not_injective.2.2.2.1 2 3 1 "User1" 144 (by decide) (by decide)
      (by decide)⟩

end PoN
